import Mathlib

/-!
Verification development for the chromatic-object engine of GalSim
(src/galsim/chromatic.py): the expression-tree composition algebra,
separability analysis, and the wavelength-integration engine.

The embedding is shallow: each Python class constructor becomes a smart
constructor returning Except (exceptions become error values), each method
becomes a Lean function.  Wavelengths, fluxes and weights are rationals.
External collaborators (GSObject rendering, galsim.integ integrators, the
SED and Bandpass classes) are outside the source file and are modelled as
abstract data carried by an explicit context structure; the spec (section
6) fixes their interfaces.

Monochromatic profiles returned by evaluateAtWavelength are represented
symbolically (GSExpr) so that the structure of the profile algebra is
preserved exactly; numeric collaborator quantities (fluxes of base
profiles, user callables, adaptive quadrature) are supplied by the
context.
-/

namespace GalSimChromatic

/-- Error values corresponding to the exceptions raised in chromatic.py.
missingSED: ValueError "Can only draw ChromaticObjects with SEDs";
noFiducial: ValueError "Could not locate fiducial wavelength...";
outOfRange: RuntimeError "Requested wavelength ... is outside the allowed
range"; invalidComposition: the ValueError raised by the constructors for
invalid compositions (two SEDs convolved, SED deconvolved, mixed Sum,
second SED attached); multipleSED: RuntimeError "Encountered convolution
of more than one SEDed ChromaticObject"; typeErr: TypeError/ValueError of
argument validation; other: error states standing for Python crashes
(IndexError and similar) that are unreachable from well-formed inputs. -/
inductive Err : Type where
  | missingSED
  | noFiducial
  | outOfRange
  | invalidComposition
  | multipleSED
  | typeErr
  | other
  deriving DecidableEq, Repr

/-- Numeric environment for the externally supplied base functions: base
spectral densities and their knot lists, user wavelength callables, user
jacobian and offset functions, and a square-root evaluator standing in for
float sqrt (which has no exact rational counterpart). -/
structure REnv : Type where
  sedF : ℕ → ℚ → ℚ
  sedWL : ℕ → List ℚ
  wfF : ℕ → ℚ → ℚ
  jacF : ℕ → ℚ → ℚ × ℚ × ℚ × ℚ
  offF : ℕ → ℚ → ℚ × ℚ
  sqrtQ : ℚ → ℚ

/-- Insert a wavelength into a sorted duplicate-free list, keeping it
sorted and duplicate-free. -/
def insRq (x : ℚ) : List ℚ → List ℚ
  | [] => [x]
  | y :: ys => if x < y then x :: y :: ys else if x = y then y :: ys else y :: insRq x ys

/-- Sorted duplicate-free union of wavelength lists, as np.union1d. -/
def unionQ (l1 l2 : List ℚ) : List ℚ :=
  l1.foldr insRq (l2.foldr insRq [])

/-- Spectral values: spectral densities (the sed-prefixed constructors,
corresponding to instances of the external SED class), plain floats (c),
user wavelength callables (wBase), and the lambdas built internally by
galsim.utilities.functionize combinators (prodW, invW, sqW, sqrtW, addW,
scaleW).  One type covers SEDs, _norm values and flux ratios because the
Python attributes are dynamically typed and the composition machinery
mixes them.  Modelled from the spec for the external SED class: equality
of spectral values, used when they serve as dict keys, is structural
equality of the construction, so two base SEDs with different indices are
never equal even if the environment assigns them equal-valued functions
(the deliberate identity-comparison policy of the spec); floats (c)
compare by value. -/
inductive SpecE : Type where
  | sedBase (i : ℕ)
  | sedScale (s : SpecE) (q : ℚ)
  | sedAdd (a b : SpecE)
  | sedMul (s : SpecE) (f : SpecE)
  | c (q : ℚ)
  | wBase (i : ℕ)
  | prodW (a b : SpecE)
  | invW (a : SpecE)
  | sqW (a : SpecE)
  | sqrtW (a : SpecE)
  | addW (a b : SpecE)
  | scaleW (a : SpecE) (q : ℚ)
  deriving DecidableEq, Repr

/-- Whether the value is an SED instance (isinstance(x, galsim.SED)):
SED construction (base SED, SED times float, SED plus SED, SED times
norm) yields SED instances; everything else does not. -/
def SpecE.isSED : SpecE → Bool
  | .sedBase _ => true
  | .sedScale _ _ => true
  | .sedAdd _ _ => true
  | .sedMul _ _ => true
  | _ => false

/-- Whether the value is a plain float (so not a callable and not an SED). -/
def SpecE.isC : SpecE → Bool
  | .c _ => true
  | _ => false

/-- Evaluate a spectral value at a wavelength. -/
def SpecE.eval (R : REnv) : SpecE → ℚ → ℚ
  | .sedBase i, w => R.sedF i w
  | .sedScale s q, w => q * s.eval R w
  | .sedAdd a b, w => a.eval R w + b.eval R w
  | .sedMul s f, w => s.eval R w * f.eval R w
  | .c q, _ => q
  | .wBase i, w => R.wfF i w
  | .prodW a b, w => a.eval R w * b.eval R w
  | .invW a, w => 1 / a.eval R w
  | .sqW a, w => a.eval R w * a.eval R w
  | .sqrtW a, w => R.sqrtQ (a.eval R w)
  | .addW a b, w => a.eval R w + b.eval R w
  | .scaleW a q, w => a.eval R w * q

/-- Wavelength knot list of a spectral value.  Modelled from the spec for
the external SED class: scaling keeps the knots, adding SEDs merges the
knots; non-SED values have no knots. -/
def SpecE.wlOf (R : REnv) : SpecE → List ℚ
  | .sedBase i => R.sedWL i
  | .sedScale s _ => s.wlOf R
  | .sedAdd a b => unionQ (a.wlOf R) (b.wlOf R)
  | .sedMul s _ => s.wlOf R
  | _ => []

/-- Product via galsim.utilities.functionize: evaluated eagerly when both
factors are plain floats, a fresh callable otherwise (used by
ChromaticConvolution.__init__ lines 1808-1812, ChromaticTransformation
lines 1306-1311 and 1332-1338). -/
def SpecE.fnProd : SpecE → SpecE → SpecE
  | .c a, .c b => .c (a * b)
  | a, b => .prodW a b

/-- Reciprocal of a norm (ChromaticDeconvolution.__init__ lines 2112-2115). -/
def SpecE.fnInv : SpecE → SpecE
  | .c a => .c (1 / a)
  | a => .invW a

/-- Square of a norm (ChromaticAutoConvolution lines 2172-2175,
ChromaticAutoCorrelation lines 2233-2236). -/
def SpecE.fnSq : SpecE → SpecE
  | .c a => .c (a * a)
  | a => .sqW a

/-- Square root of a norm (ChromaticFourierSqrtProfile lines 2295-2298).
The float branch computes math.sqrt, which has no exact rational value, so
both branches stay symbolic; the numeric value comes from the context. -/
def SpecE.fnSqrt : SpecE → SpecE
  | a => .sqrtW a

/-- A 2x2 jacobian (dudx, dudy, dvdx, dvdy). -/
abbrev Mat2 : Type := ℚ × ℚ × ℚ × ℚ

/-- Matrix product of jacobians. -/
def matMul (m2 m1 : Mat2) : Mat2 :=
  let (a, b, cc, d) := m2
  let (e, f, g, h) := m1
  (a * e + b * g, a * f + b * h, cc * e + d * g, cc * f + d * h)

/-- Matrix determinant. -/
def matDet (m : Mat2) : ℚ :=
  let (a, b, cc, d) := m
  a * d - b * cc

/-- Matrix-vector product. -/
def matVec (m : Mat2) (v : ℚ × ℚ) : ℚ × ℚ :=
  let (a, b, cc, d) := m
  (a * v.1 + b * v.2, cc * v.1 + d * v.2)

/-- Identity jacobian (default jac argument np.identity(2)). -/
def idMat : Mat2 := (1, 0, 0, 1)

/-- Jacobian argument of a transformation: a constant matrix, a user
callable, or the functionize composition new_jac(jac1, jac2) =
jac2.dot(jac1) built when transformations nest (lines 1324-1326). -/
inductive JacE : Type where
  | cM (m : Mat2)
  | base (i : ℕ)
  | compJ (inner outer : JacE)
  deriving DecidableEq, Repr

/-- Evaluate a jacobian at a wavelength. -/
def JacE.eval (R : REnv) : JacE → ℚ → Mat2
  | .cM m, _ => m
  | .base i, w => R.jacF i w
  | .compJ inner outer, w => matMul (outer.eval R w) (inner.eval R w)

/-- Whether the jacobian is a callable. -/
def JacE.isFn : JacE → Bool
  | .cM _ => false
  | _ => true

/-- functionize composition of jacobians: eager when both are constant. -/
def JacE.jComp : JacE → JacE → JacE
  | .cM m1, .cM m2 => .cM (matMul m2 m1)
  | inner, outer => .compJ inner outer

/-- Offset argument of a transformation: a constant vector, a user
callable, or the functionize composition new_offset(jac2, off1, off2) =
jac2.dot(off1) + off2 (lines 1328-1330). -/
inductive OffE : Type where
  | cV (v : ℚ × ℚ)
  | base (i : ℕ)
  | compO (jac2 : JacE) (off1 off2 : OffE)
  deriving DecidableEq, Repr

/-- Evaluate an offset at a wavelength. -/
def OffE.eval (R : REnv) : OffE → ℚ → ℚ × ℚ
  | .cV v, _ => v
  | .base i, w => R.offF i w
  | .compO j o1 o2, w =>
      let jo := matVec (j.eval R w) (o1.eval R w)
      let o2v := o2.eval R w
      (jo.1 + o2v.1, jo.2 + o2v.2)

/-- Whether the offset is a callable. -/
def OffE.isFn : OffE → Bool
  | .cV _ => false
  | _ => true

/-- functionize composition of offsets: eager when all parts constant. -/
def OffE.oComp : JacE → OffE → OffE → OffE
  | .cM m, .cV v1, .cV v2 =>
      .cV ((matVec m v1).1 + v2.1, (matVec m v1).2 + v2.2)
  | j, o1, o2 => .compO j o1 o2

/-- Zero offset (default offset argument (0,0)). -/
def zeroOff : OffE := .cV (0, 0)

/-- A filter transmission curve.  Modelled from the spec: the Bandpass
class is an external collaborator exposing evaluate, effectiveWavelength,
blueLimit, redLimit and a knot list; bid is its identity, used where
Bandpass objects serve as cache keys. -/
structure Bandpass : Type where
  bid : ℕ
  f : ℚ → ℚ
  blue : ℚ
  red : ℚ
  eff : ℚ
  wl : List ℚ

/-- Symbolic monochromatic profile (the GSObject algebra produced by
evaluateAtWavelength).  Modelled from the spec: the achromatic profile and
its algebra (add, convolve, transform, deconvolve, autoconvolve,
autocorrelate, fourierSqrt) are external collaborators; base profiles are
identified by an index, interpImage is galsim.InterpolatedImage built from
an image with optionally forced stepk and maxk. -/
inductive GSExpr (Img : Type) : Type where
  | base (i : ℕ)
  | scale (q : ℚ) (g : GSExpr Img)
  | addL (l : List (GSExpr Img))
  | convL (l : List (GSExpr Img))
  | transformG (g : GSExpr Img) (jac : Mat2) (off : ℚ × ℚ) (fr : ℚ)
  | deconv (g : GSExpr Img)
  | autoconv (g : GSExpr Img)
  | autocorr (g : GSExpr Img)
  | fsqrt (g : GSExpr Img)
  | interpImage (im : Img) (forceK : Option (ℚ × ℚ))

/-- Context of external collaborators: numeric environment, base profile
fluxes, flux of an image, evaluation of the inseparable chromatic leaf
classes, image setup and rendering primitives, adaptive 1d quadrature, the
two image integrators of galsim.integ (the Bool selects the midpoint rule
instead of the trapezoidal rule), bandpass resampling onto a knot table,
and profile bookkeeping (nyquist scale, good image size, stepk, maxk, and
rendering onto a fixed grid).  Modelled from the spec, section 6. -/
structure Ctx (Img : Type) : Type where
  env : REnv
  gsFlux : ℕ → ℚ
  imFlux : Img → ℚ
  cleafEval : ℕ → ℚ → GSExpr Img
  setup : GSExpr Img → Option Img → Img
  render : GSExpr Img → Option Img → Bool → Img
  zeroLike : Img → Img
  int1d : (ℚ → ℚ) → ℚ → ℚ → ℚ
  sampleIntegrate : Bool → (ℚ → Except Err (GSExpr Img)) → Bandpass → Img → Except Err Img
  contIntegrate : Bool → (ℚ → Except Err (GSExpr Img)) → Bandpass → Img → Except Err Img
  tableBandpass : Bandpass → List ℚ → Bandpass
  nyquistScale : GSExpr Img → ℚ
  goodImageSize : GSExpr Img → ℚ → ℕ
  stepK : GSExpr Img → ℚ
  maxK : GSExpr Img → ℚ
  renderGrid : GSExpr Img → ℚ → ℕ → Img

mutual

/-- Flux of a symbolic monochromatic profile.  Modelled from the spec:
flux of a sum is the sum of fluxes, of a convolution the product, a
transformation scales flux by the flux ratio times the absolute jacobian
determinant, deconvolution inverts the flux, auto-convolution and
auto-correlation square it, the Fourier square root goes through the
external square root (collaborator conventions). -/
def GSExpr.fluxE {Img : Type} (C : Ctx Img) : GSExpr Img → ℚ
  | .base i => C.gsFlux i
  | .scale q g => q * g.fluxE C
  | .addL l => fluxSum C l
  | .convL l => fluxProd C l
  | .transformG g jac _ fr => g.fluxE C * fr * |matDet jac|
  | .deconv g => 1 / g.fluxE C
  | .autoconv g => g.fluxE C * g.fluxE C
  | .autocorr g => g.fluxE C * g.fluxE C
  | .fsqrt g => C.env.sqrtQ (g.fluxE C)
  | .interpImage im _ => C.imFlux im

/-- Sum of the fluxes of a list of profiles. -/
def fluxSum {Img : Type} (C : Ctx Img) : List (GSExpr Img) → ℚ
  | [] => 0
  | g :: l => g.fluxE C + fluxSum C l

/-- Product of the fluxes of a list of profiles. -/
def fluxProd {Img : Type} (C : Ctx Img) : List (GSExpr Img) → ℚ
  | [] => 1
  | g :: l => g.fluxE C * fluxProd C l

end

/-- The attributes every ChromaticObject instance carries: separable,
interpolated, SED, _norm and wave_list (chromatic.py, interface comment at
lines 81-108).  Exactly the values stored by the Python constructors. -/
structure NAttr : Type where
  sep : Bool
  itp : Bool
  sed : Option SpecE
  norm : Option SpecE
  wl : List ℚ
  deriving Repr

instance : SizeOf NAttr := ⟨fun _ => 0⟩

/-- The chromatic expression tree.  Variants mirror the classes of
chromatic.py: chrom is galsim.Chromatic (a GSObject with an SED attached),
cleaf stands for the inseparable chromatic leaf classes that carry no SED
and norm 1.0 and evaluate through an external function
(ChromaticOpticalPSF, ChromaticAiry, ChromaticAtmosphere: attribute blocks
at lines 2402-2406, 2496-2500, 1061-1065), sum is ChromaticSum, conv is
ChromaticConvolution, transform is ChromaticTransformation, deconvN,
autoconvN, autocorrN, fsqrtN are the four unary operators, interpN is
InterpolatedChromaticObject.  Every variant stores the attribute record
computed by its constructor. -/
inductive Node (Img : Type) : Type where
  | chrom (a : NAttr) (g : GSExpr Img)
  | cleaf (a : NAttr) (i : ℕ)
  | sum (a : NAttr) (objlist : List (Node Img))
  | conv (a : NAttr) (objlist : List (Node Img))
  | transform (a : NAttr) (original : Node Img) (jac : JacE) (off : OffE) (fr : SpecE)
  | deconvN (a : NAttr) (obj : Node Img)
  | autoconvN (a : NAttr) (obj : Node Img)
  | autocorrN (a : NAttr) (obj : Node Img)
  | fsqrtN (a : NAttr) (obj : Node Img)
  | interpN (a : NAttr) (original : Node Img) (waves : List ℚ) (ims : List Img)
      (stepKs maxKs : List ℚ) (oversample : ℚ)

/-- The stored attribute record of a node. -/
def Node.attr {Img : Type} : Node Img → NAttr
  | .chrom a _ => a
  | .cleaf a _ => a
  | .sum a _ => a
  | .conv a _ => a
  | .transform a _ _ _ _ => a
  | .deconvN a _ => a
  | .autoconvN a _ => a
  | .autocorrN a _ => a
  | .fsqrtN a _ => a
  | .interpN a _ _ _ _ _ _ => a

/-- The separable attribute. -/
def Node.sep {Img : Type} (n : Node Img) : Bool := n.attr.sep

/-- The interpolated attribute. -/
def Node.itp {Img : Type} (n : Node Img) : Bool := n.attr.itp

/-- The SED attribute (none encodes Python None). -/
def Node.sedA {Img : Type} (n : Node Img) : Option SpecE := n.attr.sed

/-- The _norm attribute (none encodes Python None). -/
def Node.normA {Img : Type} (n : Node Img) : Option SpecE := n.attr.norm

/-- The wave_list attribute. -/
def Node.wlA {Img : Type} (n : Node Img) : List ℚ := n.attr.wl

/-- The objlist of a compound node (empty for non-compound nodes). -/
def Node.children {Img : Type} : Node Img → List (Node Img)
  | .sum _ l => l
  | .conv _ l => l
  | _ => []

mutual

/-- Number of payload nodes in a tree: the measure for the recursion of
the draw engine (attribute records do not count). -/
def Node.sz {Img : Type} : Node Img → ℕ
  | .chrom _ _ => 1
  | .cleaf _ _ => 1
  | .sum _ l => 1 + szList l
  | .conv _ l => 1 + szList l
  | .transform _ o _ _ _ => 1 + o.sz
  | .deconvN _ o => 1 + o.sz
  | .autoconvN _ o => 1 + o.sz
  | .autocorrN _ o => 1 + o.sz
  | .fsqrtN _ o => 1 + o.sz
  | .interpN _ o _ _ _ _ _ => 1 + o.sz

/-- Total payload size of a list of nodes. -/
def szList {Img : Type} : List (Node Img) → ℕ
  | [] => 0
  | n :: l => n.sz + szList l

end

/-- Sort a wavelength list ascending, keeping duplicates (np.sort). -/
def sortQ (l : List ℚ) : List ℚ :=
  l.foldr insKeep []
where
  /-- Insert into a sorted list, keeping duplicates. -/
  insKeep (x : ℚ) : List ℚ → List ℚ
    | [] => [x]
    | y :: ys => if x ≤ y then x :: y :: ys else y :: insKeep x ys

/-- Minimum of a wavelength list (np.min); 0 on the empty list, on which
np.min would raise (callers guard for emptiness). -/
def minQ : List ℚ → ℚ
  | [] => 0
  | x :: xs => xs.foldl min x

/-- Maximum of a wavelength list (np.max); 0 on the empty list. -/
def maxQ : List ℚ → ℚ
  | [] => 0
  | x :: xs => xs.foldl max x

/-- np.searchsorted with side left on a sorted list: the number of entries
strictly below the query. -/
def searchsorted (l : List ℚ) (w : ℚ) : ℕ :=
  (l.filter (fun x => x < w)).length

/-- The helper _findWave (chromatic.py lines 2541-2553): locate the
bracketing index for a wavelength in a sorted grid and the fractional
position towards the next entry.  The index is clamped into range exactly
as in the source; out-of-range list reads (an IndexError in Python,
unreachable under the callers' range guards) read the default 0. -/
def findWave (waves : List ℚ) (w : ℚ) : ℕ × ℚ :=
  let ss := searchsorted waves w
  let li := if ss = 0 then 0 else min (ss - 1) (waves.length - 1)
  let w0 := waves.getD li 0
  let w1 := waves.getD (li + 1) 0
  (li, (w - w0) / (w1 - w0))

/-- The helper _linearInterp (lines 2555-2562):
frac * list[li+1] + (1-frac) * list[li]. -/
def linInterp {α : Type} [AddCommMonoid α] [SMul ℚ α] (l : List α) (frac : ℚ) (li : ℕ) : α :=
  frac • l.getD (li + 1) 0 + (1 - frac) • l.getD li 0

/-- np.trapz of a function sampled on a knot list. -/
def trapzQ (f : ℚ → ℚ) : List ℚ → ℚ
  | x :: y :: rest => (f x + f y) / 2 * (y - x) + trapzQ f (y :: rest)
  | _ => 0

/-- The wave_list assembly of the compound constructors: fold np.union1d
over the objlist (ChromaticSum lines 1657-1660; for ChromaticConvolution
line 1847 combine_wave_list, an external helper the spec describes as the
union of the wavelength knots). -/
def wlUnion {Img : Type} (l : List (Node Img)) : List ℚ :=
  l.foldl (fun acc o => unionQ acc o.wlA) []

/-- InterpolatedChromaticObject._imageAtWavelength (lines 856-880): range
check with strict inequalities, bracketing search, and linear
interpolation of the stored images and of the stored stepk and maxk
values.  An empty grid, on which np.min would raise, errors. -/
def imageAtWavelength {Img : Type} [AddCommMonoid Img] [Module ℚ Img]
    (waves : List ℚ) (ims : List Img) (stepKs maxKs : List ℚ) (w : ℚ) :
    Except Err (GSExpr Img) :=
  if waves.isEmpty then .error .other
  else if w < minQ waves ∨ w > maxQ waves then .error .outOfRange
  else
    let lf := findWave waves w
    let im := linInterp ims lf.2 lf.1
    let sk := linInterp stepKs lf.2 lf.1
    let mk := linInterp maxKs lf.2 lf.1
    .ok (.interpImage im (some (sk, mk)))

mutual

/-- evaluateAtWavelength: the structural recursion over the tree.
Chromatic (lines 1246-1253) scales the stored profile by SED(wave); sums
(1684-1692) add the evaluations; convolutions (1902-1910) convolve them;
transformations (1476-1486) evaluate the original and apply the jacobian,
offset and flux ratio sampled at the wavelength; the unary operators
(2137-2144, 2197-2204, 2258-2265, 2312-2319) apply the corresponding
achromatic operator; an InterpolatedChromaticObject (882-891) interpolates
the stored images.  The inseparable leaf classes evaluate through the
context.  A Chromatic node with no SED is unreachable (the constructor
always attaches one). -/
def Node.evalAt {Img : Type} [AddCommMonoid Img] [Module ℚ Img] (C : Ctx Img) :
    Node Img → ℚ → Except Err (GSExpr Img)
  | .chrom a g, w =>
      match a.sed with
      | some s => .ok (.scale (s.eval C.env w) g)
      | none => .error .other
  | .cleaf _ i, w => .ok (C.cleafEval i w)
  | .sum _ l, w => do .ok (.addL (← evalList C l w))
  | .conv _ l, w => do .ok (.convL (← evalList C l w))
  | .transform _ orig j o fr, w => do
      let g ← orig.evalAt C w
      .ok (.transformG g (j.eval C.env w) (o.eval C.env w) (fr.eval C.env w))
  | .deconvN _ o, w => do .ok (.deconv (← o.evalAt C w))
  | .autoconvN _ o, w => do .ok (.autoconv (← o.evalAt C w))
  | .autocorrN _ o, w => do .ok (.autocorr (← o.evalAt C w))
  | .fsqrtN _ o, w => do .ok (.fsqrt (← o.evalAt C w))
  | .interpN _ _ waves ims stepKs maxKs _, w => imageAtWavelength waves ims stepKs maxKs w

/-- Evaluate every node of a list at a wavelength. -/
def evalList {Img : Type} [AddCommMonoid Img] [Module ℚ Img] (C : Ctx Img) :
    List (Node Img) → ℚ → Except Err (List (GSExpr Img))
  | [], _ => .ok []
  | n :: l, w => do
      let g ← n.evalAt C w
      let gs ← evalList C l w
      .ok (g :: gs)

end

/-- Chromatic.__init__ (lines 1219-1227): attach an SED to a GSObject.
The stored SED is SED * flux, the stored profile is gsobj / flux, the
wave_list is the wave_list of the stored SED, and the node is separable
and not interpolated. -/
def mkChromatic {Img : Type} (C : Ctx Img) (gsobj : GSExpr Img) (sed : SpecE) : Node Img :=
  let flux := gsobj.fluxE C
  let sed' := sed.sedScale flux
  .chrom ⟨true, false, some sed', none, sed'.wlOf C.env⟩ (.scale (1 / flux) gsobj)

/-- The inseparable chromatic leaf classes (ChromaticOpticalPSF,
ChromaticAiry, ChromaticAtmosphere): separable False, interpolated False,
SED None, norm 1.0, empty wave_list (lines 2402-2406, 2496-2500,
1061-1065). -/
def mkCleaf {Img : Type} (i : ℕ) : Node Img :=
  .cleaf ⟨false, false, none, some (.c 1), []⟩ i

/-- ChromaticDeconvolution.__init__ (lines 2103-2115): rejects an
SED-bearing argument, stores SED None and norm 1/obj norm. -/
def mkDeconv {Img : Type} (obj : Node Img) : Except Err (Node Img) :=
  if obj.sedA.isSome then .error .invalidComposition
  else match obj.normA with
    | none => .error .typeErr
    | some nrm => .ok (.deconvN ⟨obj.sep, obj.itp, none, some nrm.fnInv, obj.wlA⟩ obj)

/-- ChromaticAutoConvolution.__init__ (lines 2163-2175): rejects an
SED-bearing argument, stores SED None and the squared norm. -/
def mkAutoConv {Img : Type} (obj : Node Img) : Except Err (Node Img) :=
  if obj.sedA.isSome then .error .invalidComposition
  else match obj.normA with
    | none => .error .typeErr
    | some nrm => .ok (.autoconvN ⟨obj.sep, obj.itp, none, some nrm.fnSq, obj.wlA⟩ obj)

/-- ChromaticAutoCorrelation.__init__ (lines 2224-2236): rejects an
SED-bearing argument, stores SED None and the squared norm. -/
def mkAutoCorr {Img : Type} (obj : Node Img) : Except Err (Node Img) :=
  if obj.sedA.isSome then .error .invalidComposition
  else match obj.normA with
    | none => .error .typeErr
    | some nrm => .ok (.autocorrN ⟨obj.sep, obj.itp, none, some nrm.fnSq, obj.wlA⟩ obj)

/-- ChromaticFourierSqrtProfile.__init__ (lines 2285-2298): rejects an
SED-bearing argument, stores SED None and the square root of the norm. -/
def mkFSqrt {Img : Type} (obj : Node Img) : Except Err (Node Img) :=
  if obj.sedA.isSome then .error .invalidComposition
  else match obj.normA with
    | none => .error .typeErr
    | some nrm => .ok (.fsqrtN ⟨obj.sep, obj.itp, none, some nrm.fnSqrt, obj.wlA⟩ obj)

/-- Append an object to its normalization partition, preserving the
insertion order of keys and of objects (the norm_dict of
ChromaticSum.__init__, lines 1598-1609). -/
def dictApp {Img : Type} :
    List (Option SpecE × List (Node Img)) → Option SpecE → Node Img →
      List (Option SpecE × List (Node Img))
  | [], k, o => [(k, [o])]
  | (k0, os) :: rest, k, o =>
      if k0 = k then (k0, os ++ [o]) :: rest else (k0, os) :: dictApp rest k o

/-- One step of the partition loop of ChromaticSum.__init__ (lines
1600-1609): a separable summand is appended to its partition in the
norm_dict, keyed by its SED when any summand carries an SED and by its
norm otherwise; an inseparable summand is appended to the objlist. -/
def pstep {Img : Type} (b : Bool)
    (acc : List (Option SpecE × List (Node Img)) × List (Node Img)) (obj : Node Img) :
    List (Option SpecE × List (Node Img)) × List (Node Img) :=
  if obj.sep then
    (dictApp acc.1 (if b then obj.sedA else obj.normA) obj, acc.2)
  else (acc.1, acc.2 ++ [obj])

/-- ChromaticSum.__init__ (lines 1558-1660), with fuel for the recursive
grouping (the source recursively wraps each multi-object partition in a
new ChromaticSum; a partition is strictly smaller than the argument list,
so the fuel used by the wrapper below never runs out).  Raises on an empty
argument list and on mixing SED-carrying with norm-carrying summands;
partitions separable summands by the identity of their SED (when any
summand carries an SED) or of their norm; the Sum is separable exactly
when no summand is inseparable and a single partition remains, in which
case the SED (or norm) is that of the partition times the number of
objects; otherwise the objlist is the inseparable summands followed by one
representative per partition and the SED (or norm) is the sum over that
objlist. -/
def mkSumF {Img : Type} (C : Ctx Img) : ℕ → List (Node Img) → Except Err (Node Img)
  | 0, _ => .error .other
  | _ + 1, [] => .error .typeErr
  | fu + 1, args => do
      let itp := args.any (·.itp)
      let isSEDed := args.any (fun a => a.sedA.isSome)
      let isNormed := args.any (fun a => a.normA.isSome)
      if isSEDed && isNormed then .error .invalidComposition
      else
        let part := args.foldl (pstep isSEDed) ([], [])
        let ndict := part.1
        let insep := part.2
        if insep.isEmpty && ndict.length == 1 then
          match ndict with
          | [] => .error .other
          | (key, objs) :: _ =>
            match key with
            | none => .error .typeErr
            | some k =>
              if isSEDed then
                .ok (.sum ⟨true, itp, some (k.sedScale objs.length), none, wlUnion objs⟩ objs)
              else
                let nrm : SpecE :=
                  match k with
                  | .c q => .c (q * objs.length)
                  | k => .scaleW k objs.length
                .ok (.sum ⟨true, itp, none, some nrm, wlUnion objs⟩ objs)
        else
          let reps ← ndict.mapM (fun kv =>
            match kv.2 with
            | [o] => .ok o
            | os => mkSumF C fu os)
          let objlist := insep ++ reps
          if isSEDed then
            let seds ← objlist.mapM (fun o =>
              match o.sedA with | some s => Except.ok s | none => Except.error Err.typeErr)
            match seds with
            | [] => .error .other
            | s0 :: srest =>
              .ok (.sum ⟨false, itp, some (srest.foldl SpecE.sedAdd s0), none,
                    wlUnion objlist⟩ objlist)
          else
            let nrms ← objlist.mapM (fun o =>
              match o.normA with | some s => Except.ok s | none => Except.error Err.typeErr)
            let nrm : SpecE :=
              if nrms.all SpecE.isC then
                .c ((nrms.map (fun s => match s with | .c q => q | _ => 0)).sum)
              else
                nrms.foldl SpecE.addW (.c 0)
            .ok (.sum ⟨false, itp, none, some nrm, wlUnion objlist⟩ objlist)

/-- ChromaticSum construction; the fuel covers the one level of recursive
partition grouping the source can perform. -/
def mkSum {Img : Type} (C : Ctx Img) (args : List (Node Img)) : Except Err (Node Img) :=
  mkSumF C (args.length + 1) args

/-- Splice nested convolutions into the objlist
(ChromaticConvolution.__init__ lines 1818-1824). -/
def convFlatten {Img : Type} : List (Node Img) → List (Node Img)
  | [] => []
  | o :: rest =>
      (match o with
        | .conv _ l => l
        | o => [o]) ++ convFlatten rest

/-- One step of the SED and norm accumulation of
ChromaticConvolution.__init__ (lines 1798-1812): a convolutant with an SED
becomes the single SED, erroring when one was already found; the norms of
the SED-free convolutants multiply up through functionize. -/
def convStep {Img : Type} (acc : Option SpecE × SpecE) (obj : Node Img) :
    Except Err (Option SpecE × SpecE) :=
  match obj.sedA with
  | some s =>
      match acc.1 with
      | none => Except.ok (some s, acc.2)
      | some _ => Except.error Err.invalidComposition
  | none =>
      match obj.normA with
      | none => Except.error Err.typeErr
      | some nrm => Except.ok (acc.1, acc.2.fnProd nrm)

/-- ChromaticConvolution.__init__ (lines 1769-1847): rejects an empty
argument list; accumulates at most one SED over the convolutants,
erroring on a second one, and the functionize product of the norms of the
SED-free convolutants; folds the norm into the SED when one is present;
splices nested convolutions; separable iff all convolutants are
separable; interpolated iff any is; wave_list is the union over the
objlist. -/
def mkConv {Img : Type} (C : Ctx Img) (args : List (Node Img)) : Except Err (Node Img) := do
  match args with
  | [] => .error .typeErr
  | _ =>
    let sedNorm ← args.foldlM convStep ((none : Option SpecE), (.c 1 : SpecE))
    let sedF : Option SpecE × Option SpecE :=
      match sedNorm.1 with
      | some s => (some (s.sedMul sedNorm.2), none)
      | none => (none, some sedNorm.2)
    let objlist := convFlatten args
    .ok (.conv ⟨objlist.all (·.sep), objlist.any (·.itp), sedF.1, sedF.2, wlUnion objlist⟩
          objlist)

mutual

/-- ChromaticTransformation.__init__ (lines 1281-1357), with fuel shared
with deinterpolation.  The transformation is chromatic when any of the
jacobian, offset or flux ratio is a callable (an SED counts as callable);
separable iff the argument is separable and the transformation is not
chromatic.  An SED flux ratio on an SED-bearing argument is rejected;
otherwise the SED and norm bookkeeping multiplies the flux ratio into
whichever of SED or norm the argument carries.  A chromatic transformation
of an interpolated argument reverts the interpolation.  Transforming a
transformation composes the jacobians, offsets and flux ratios and keeps
the inner original.  The wave_list combines the original wave_list with
the knots of the SED when one is present. -/
def mkTransformF {Img : Type} (C : Ctx Img) :
    ℕ → Node Img → JacE → OffE → SpecE → Except Err (Node Img)
  | 0, _, _, _, _ => .error .other
  | fu + 1, obj0, jac, off, fr => do
      let chromatic := jac.isFn || off.isFn || !fr.isC
      let sep := obj0.sep && !chromatic
      let sedNorm ← (if fr.isSED then
          match obj0.sedA with
          | some _ => Except.error Err.invalidComposition
          | none =>
              match obj0.normA with
              | none => Except.error Err.typeErr
              | some nrm => Except.ok (some (fr.sedMul nrm), (none : Option SpecE))
        else
          match obj0.sedA with
          | some s => Except.ok (some (s.sedMul fr), (none : Option SpecE))
          | none =>
              match obj0.normA with
              | none => Except.error Err.typeErr
              | some nrm => Except.ok ((none : Option SpecE), some (nrm.fnProd fr)))
      let obj := if obj0.itp && chromatic then deinterpF C fu obj0 else obj0
      let comp :=
        match obj with
        | .transform _ orig j0 o0 f0 => (orig, j0.jComp jac, OffE.oComp jac o0 off, f0.fnProd fr)
        | _ => (obj, jac, off, fr)
      let wl :=
        match sedNorm.1 with
        | some s => unionQ comp.1.wlA (s.wlOf C.env)
        | none => comp.1.wlA
      .ok (.transform ⟨sep, obj.itp, sedNorm.1, sedNorm.2, wl⟩ comp.1 comp.2.1 comp.2.2.1
            comp.2.2.2)

/-- The _deinterpolate methods: an InterpolatedChromaticObject reverts to
its stored original (line 833-834); compound nodes whose interpolated flag
is set rebuild themselves from deinterpolated parts through their
constructors (lines 1465-1474, 1662-1667, 1849-1854, 2117-2121, 2177-2181,
2238-2242, 2300-2304); everything else returns itself.  Constructor
errors cannot occur when rebuilding an already valid node, and fuel
exhaustion returns the node unchanged; both fallbacks are unreachable in
the uses below. -/
def deinterpF {Img : Type} (C : Ctx Img) : ℕ → Node Img → Node Img
  | 0, n => n
  | fu + 1, n =>
      if n.itp = false then n
      else
        match n with
        | .interpN _ original _ _ _ _ _ => original
        | .sum _ l => ((mkSumF C (l.length + 1) (l.map (deinterpF C fu))).toOption.getD n)
        | .conv _ l => ((mkConv C (l.map (deinterpF C fu))).toOption.getD n)
        | .transform _ orig j o f =>
            ((mkTransformF C fu (deinterpF C fu orig) j o f).toOption.getD n)
        | .deconvN _ o => ((mkDeconv (deinterpF C fu o)).toOption.getD n)
        | .autoconvN _ o => ((mkAutoConv (deinterpF C fu o)).toOption.getD n)
        | .autocorrN _ o => ((mkAutoCorr (deinterpF C fu o)).toOption.getD n)
        | .fsqrtN _ o => ((mkFSqrt (deinterpF C fu o)).toOption.getD n)
        | n => n

end

/-- ChromaticTransformation construction (galsim.Transform on a chromatic
object); the fuel covers any deinterpolation the constructor performs. -/
def mkTransform {Img : Type} (C : Ctx Img) (obj : Node Img) (jac : JacE) (off : OffE)
    (fr : SpecE) : Except Err (Node Img) :=
  mkTransformF C (obj.sz + 1) obj jac off fr

/-- The deinterpolated property (lines 268-275). -/
def Node.deinterp {Img : Type} (C : Ctx Img) (n : Node Img) : Node Img :=
  deinterpF C (n.sz + 1) n

/-- InterpolatedChromaticObject.__init__ (lines 796-831): attributes are
copied from the argument, the interpolated flag is set, the stored
original is the deinterpolated argument, the grid is the sorted wavelength
array, the profiles are the evaluations of the argument at the grid
wavelengths, the common scale is the minimum nyquist scale over the
profiles divided by the oversampling factor, the common size the maximum
good image size at that scale, and the stored images, stepk and maxk lists
are taken per profile on the common grid. -/
def mkInterp {Img : Type} [AddCommMonoid Img] [Module ℚ Img] (C : Ctx Img)
    (original : Node Img) (waves : List ℚ) (oversample : ℚ) : Except Err (Node Img) := do
  let a : NAttr := ⟨original.sep, true, original.sedA, original.normA, original.wlA⟩
  let waves' := sortQ waves
  let objs ← waves'.mapM (fun w => original.evalAt C w)
  match objs with
  | [] => .error .other
  | o0 :: orest =>
    let scale := ((orest.map C.nyquistScale).foldl min (C.nyquistScale o0)) / oversample
    let imSize := (orest.map (fun o => C.goodImageSize o scale)).foldl
        max (C.goodImageSize o0 scale)
    .ok (.interpN a (original.deinterp C) waves' ((o0 :: orest).map (fun o => C.renderGrid o scale imSize))
          ((o0 :: orest).map C.stepK) ((o0 :: orest).map C.maxK) oversample)

/-- The combined wave list of a node and a bandpass.  Modelled from the
spec: galsim.utilities.combine_wave_list (outside the source file) merges
the wavelength knots of its arguments; the union of the knot lists. -/
def combineWL {Img : Type} (n : Node Img) (bp : Bandpass) : List ℚ :=
  unionQ n.wlA bp.wl

/-- Sort wavelengths by proximity to a reference wavelength
(np.argsort(np.abs(candidate_waves - bpwave)) in _fiducial_profile,
line 173). -/
def sortProx (e : ℚ) (l : List ℚ) : List ℚ :=
  l.foldr ins []
where
  /-- Insert keeping the proximity order. -/
  ins (x : ℚ) : List ℚ → List ℚ
    | [] => [x]
    | y :: ys => if |x - e| ≤ |y - e| then x :: y :: ys else y :: ins x ys

/-- The candidate loop of _fiducial_profile (lines 174-179): evaluate at
each candidate until a profile of nonzero flux appears. -/
def fiducialGo {Img : Type} [AddCommMonoid Img] [Module ℚ Img] (C : Ctx Img) (n : Node Img) :
    List ℚ → Except Err (ℚ × GSExpr Img)
  | [] => .error .noFiducial
  | w :: ws => do
      let p ← n.evalAt C w
      if p.fluxE C ≠ 0 then .ok (w, p) else fiducialGo C n ws

/-- _fiducial_profile (lines 157-179): evaluate at the effective
wavelength of the bandpass; if that profile has zero flux, probe the
bandpass midpoint and the bandpass and node knots, ordered by proximity to
the effective wavelength, until a nonzero-flux profile appears; error with
noFiducial when none does. -/
def fiducial {Img : Type} [AddCommMonoid Img] [Module ℚ Img] (C : Ctx Img) (n : Node Img)
    (bp : Bandpass) : Except Err (ℚ × GSExpr Img) := do
  let p0 ← n.evalAt C bp.eff
  if p0.fluxE C ≠ 0 then .ok (bp.eff, p0)
  else fiducialGo C n (sortProx bp.eff ((1 / 2 * (bp.blue + bp.red)) :: (bp.wl ++ n.wlA)))

/-- _get_multiplier (lines 138-146): the integral of SED times bandpass,
by the trapezoid rule over the knots when any exist, otherwise by adaptive
quadrature between the bandpass limits. -/
def getMultiplier {Img : Type} (C : Ctx Img) (sedE : ℚ → ℚ) (bp : Bandpass) (wl : List ℚ) : ℚ :=
  if wl.isEmpty then C.int1d (fun w => sedE w * bp.f w) bp.blue bp.red
  else trapzQ (fun w => sedE w * bp.f w) wl

/-- A least-recently-used memoization table.  Modelled from the spec:
galsim.utilities.LRU_Cache (outside the source file) caches a pure
function of its key, moves hits to the front, inserts misses at the front
and evicts beyond maxsize. -/
structure LRU (K V : Type) : Type where
  entries : List (K × V)
  maxsize : ℕ

/-- Call through the cache: return the cached value on a hit (moving the
entry to the front), otherwise compute, store in front and trim. -/
def LRU.call {K V : Type} [DecidableEq K] (c : LRU K V) (f : K → V) (k : K) : V × LRU K V :=
  match c.entries.find? (fun e => decide (e.1 = k)) with
  | some kv => (kv.2, ⟨kv :: c.entries.eraseP (fun e => decide (e.1 = k)), c.maxsize⟩)
  | none => (f k, ⟨((k, f k) :: c.entries).take c.maxsize, c.maxsize⟩)

/-- The key of the multiplier cache: the SED, the Bandpass identity, and
the knot tuple (line 340). -/
abbrev MulKey : Type := SpecE × ℕ × List ℚ

/-- A multiplier-cache lookup as performed by ChromaticObject.drawImage
(line 340): the cached function computes _get_multiplier from the SED and
knots of the key for the bandpass whose identity the key carries. -/
def mulCacheCall {Img : Type} (C : Ctx Img) (bp : Bandpass) (cache : LRU MulKey ℚ)
    (sed : SpecE) (wl : List ℚ) : ℚ × LRU MulKey ℚ :=
  cache.call (fun k => getMultiplier C (k.1.eval C.env) bp k.2.2) (sed, bp.bid, wl)

/-- ChromaticObject.drawImage (lines 327-384), the base integration
engine.  Requires an SED; sizes the output image from the fiducial
profile; on the separable fast path scales the fiducial profile by
multiplier / SED(fiducial wavelength) and renders once (the multiplier
cache is semantically transparent since it memoizes the pure
_get_multiplier, so the multiplier is inlined here); on the slow path
integrates the per-wavelength evaluations with the sample integrator over
the merged bandpass when knots exist, else with the continuous integrator,
then zeroes the image unless accumulating and adds the integral.  The
midpt flag selects the midpoint instead of the trapezoidal rule
(custom integrator instances are out of scope). -/
def baseDraw {Img : Type} [AddCommMonoid Img] [Module ℚ Img] (C : Ctx Img) (n : Node Img)
    (bp : Bandpass) (imgOpt : Option Img) (add : Bool) (midpt : Bool) : Except Err Img := do
  match n.sedA with
  | none => .error .missingSED
  | some s =>
    let fid ← fiducial C n bp
    let image := C.setup fid.2 imgOpt
    let wl := combineWL n bp
    if n.sep then
      .ok (C.render (.scale (getMultiplier C (s.eval C.env) bp wl / s.eval C.env fid.1) fid.2)
            (some image) add)
    else do
      let integral ← (if wl.isEmpty then C.contIntegrate midpt (fun w => n.evalAt C w) bp image
        else C.sampleIntegrate midpt (fun w => n.evalAt C w) (C.tableBandpass bp wl) image)
      .ok ((if add then image else C.zeroLike image) + integral)

/-- The per-sample spacings dw of _get_interp_image (lines 942-945):
first spacing, midpoint spacings of the neighbours, last spacing.
Empty for fewer than two samples, where the source raises an IndexError
(callers guard). -/
def dwList : List ℚ → List ℚ
  | a :: b :: rest => (b - a) :: dwMid a b rest
  | _ => []
where
  /-- Interior and final spacings. -/
  dwMid (p cur : ℚ) : List ℚ → List ℚ
    | [] => [cur - p]
    | nxt :: rest => (nxt - p) / 2 :: dwMid cur nxt rest

/-- Add a quantity to one entry of a weight list. -/
def updAdd (l : List ℚ) (i : ℕ) (q : ℚ) : List ℚ :=
  l.set i (l.getD i 0 + q)

/-- The weight-accumulation loop of _get_interp_image (lines 946-961):
each sample wavelength contributes bandpass(w) * dw, split by the
bracketing fraction between the two adjacent stored images, halved at the
endpoint samples under the trapezoidal rule. -/
def interpWeights (waves wl dw : List ℚ) (midpt : Bool) (bpf : ℚ → ℚ) : List ℚ :=
  wl.enum.foldl
    (fun wf iw =>
      let lf := findWave waves iw.2
      let b := bpf iw.2 * dw.getD iw.1 0
      if (0 < iw.1 ∧ iw.1 < wl.length - 1) ∨ midpt then
        updAdd (updAdd wf lf.1 ((1 - lf.2) * b)) (lf.1 + 1) (lf.2 * b)
      else
        updAdd (updAdd wf lf.1 ((1 - lf.2) * b / 2)) (lf.1 + 1) (lf.2 * b / 2))
    (List.replicate waves.length 0)

/-- The weighted sum of the stored images (line 964). -/
def weightedSum {Img : Type} [AddCommMonoid Img] [Module ℚ Img] (wf : List ℚ)
    (ims : List Img) : Img :=
  ((wf.zip ims).map (fun p => p.1 • p.2)).foldl (· + ·) 0

/-- The stored values at strictly positive accumulated weight
(np.array(vals)[weight_fac > 0], lines 970-971). -/
def filteredVals (vals wf : List ℚ) : List ℚ :=
  ((vals.zip wf).filter (fun p => decide (0 < p.2))).map (·.1)

/-- InterpolatedChromaticObject._get_interp_image (lines 893-974): size
the output from the fiducial profile, combine the wave lists, fail with
outOfRange when the combined list extends beyond the stored grid,
accumulate the per-image quadrature weights, build the weighted image sum,
and force stepk to the minimum and maxk to the maximum of the stored
bounds over the images of positive weight.  The error value other stands
for the crashes of the source on degenerate inputs: an empty combined
list (np.min of an empty array), a single sample (IndexError in the dw
assembly), and an empty positive-weight selection. -/
def interpGet {Img : Type} [AddCommMonoid Img] [Module ℚ Img] (C : Ctx Img) (n : Node Img)
    (bp : Bandpass) (imgOpt : Option Img) (midpt : Bool) : Except Err (GSExpr Img) :=
  match n with
  | .interpN _ _ waves ims stepKs maxKs _ => do
      let fid ← fiducial C n bp
      let _image := C.setup fid.2 imgOpt
      let wl := combineWL n bp
      match wl with
      | [] => .error .other
      | _ =>
        if minQ wl < minQ waves then .error .outOfRange
        else if maxQ wl > maxQ waves then .error .outOfRange
        else
          match wl with
          | [_] => .error .other
          | _ =>
            let wf := interpWeights waves wl (dwList wl) midpt bp.f
            match filteredVals stepKs wf with
            | [] => .error .other
            | flt =>
              .ok (.interpImage (weightedSum wf ims)
                    (some (minQ flt, maxQ (filteredVals maxKs wf))))
  | _ => .error .other

/-- InterpolatedChromaticObject.drawImage (lines 976-999): requires an
SED, integrates through _get_interp_image, and renders the resulting
InterpolatedImage onto the caller image. -/
def interpDraw {Img : Type} [AddCommMonoid Img] [Module ℚ Img] (C : Ctx Img) (n : Node Img)
    (bp : Bandpass) (imgOpt : Option Img) (add : Bool) (midpt : Bool) : Except Err Img := do
  match n.sedA with
  | none => .error .missingSED
  | some _ => do
      let intIm ← interpGet C n bp imgOpt midpt
      .ok (C.render intIm imgOpt add)

/-- ChromaticTransformation.drawImage (lines 1488-1529): requires an SED;
when the stored original is an InterpolatedChromaticObject the
interpolated integral image is built and the (achromatic) transformations,
sampled at the red limit, are applied to it before rendering onto the
caller image; otherwise the base engine runs. -/
def transformDraw {Img : Type} [AddCommMonoid Img] [Module ℚ Img] (C : Ctx Img) (n : Node Img)
    (bp : Bandpass) (imgOpt : Option Img) (add : Bool) (midpt : Bool) : Except Err Img := do
  match n with
  | .transform a orig j o fr =>
      match a.sed with
      | none => .error .missingSED
      | some _ =>
          match orig with
          | .interpN _ _ _ _ _ _ _ => do
              let intIm ← interpGet C orig bp imgOpt midpt
              .ok (C.render
                    (.transformG intIm (j.eval C.env bp.red) (o.eval C.env bp.red)
                      (fr.eval C.env bp.red)) imgOpt add)
          | _ => baseDraw C n bp imgOpt add midpt
  | _ => baseDraw C n bp imgOpt add midpt

/-- ChromaticConvolution._get_effective_prof (lines 1856-1875), with the
effective-profile cache inlined (it memoizes this pure function of its
key).  The inseparable effective node is integrated over the bandpass with
the base engine when it is a convolution (avoiding the infinite recursion
noted in the source) and with its own draw method otherwise, and the
image is wrapped into an InterpolatedImage.  A ChromaticSum cannot occur
here: sum children are distributed before the atomic branch runs.  The
rendering scale bookkeeping (nyquist scale over iimult) is absorbed by the
abstract renderer. -/
def effectiveProf {Img : Type} [AddCommMonoid Img] [Module ℚ Img] (C : Ctx Img)
    (insepObj : Node Img) (bp : Bandpass) (midpt : Bool) : Except Err (GSExpr Img) := do
  let _fid ← fiducial C insepObj bp
  let img ← (match insepObj with
    | .conv _ _ => baseDraw C insepObj bp none false midpt
    | .transform _ _ _ _ _ => transformDraw C insepObj bp none false midpt
    | .interpN _ _ _ _ _ _ _ => interpDraw C insepObj bp none false midpt
    | .sum _ _ => .error .other
    | _ => baseDraw C insepObj bp none false midpt)
  .ok (.interpImage img none)

/-- Index of the first ChromaticSum among the convolutants together with
its summands (the loop head of lines 1990-1991). -/
def firstSum {Img : Type} : List (Node Img) → Option (ℕ × List (Node Img)) :=
  go 0
where
  /-- Scan for the first sum from a given index. -/
  go (i : ℕ) : List (Node Img) → Option (ℕ × List (Node Img))
    | [] => none
    | .sum _ sl :: _ => some (i, sl)
    | _ :: rest => go (i + 1) rest

/-- The atomic branch of ChromaticConvolution.drawImage (lines 2017-2080):
no sum children remain.  Sizes the output from the fiducial profile; sorts
the convolutants into separable and inseparable ones, dividing each
separable profile by its spectral value at its fiducial wavelength and
collecting the extracted SEDs and norms; rejects more than one extracted
SED; convolves the inseparable convolutants, multiplies the extracted
spectral parts back in, computes the effective profile, and renders the
convolution of the separable spatial profiles with the effective profile
onto the output image. -/
def convAtomic {Img : Type} [AddCommMonoid Img] [Module ℚ Img] (C : Ctx Img) (n : Node Img)
    (l : List (Node Img)) (bp : Bandpass) (imgOpt : Option Img) (add : Bool) (midpt : Bool) :
    Except Err Img := do
  let fid ← fiducial C n bp
  let image := C.setup fid.2 imgOpt
  let parts ← l.foldlM
    (fun (acc : List (GSExpr Img) × List (Node Img) × List SpecE × List SpecE) obj =>
      if obj.sep then do
        let fidO ← fiducial C obj bp
        match obj.sedA with
        | some s =>
            Except.ok (acc.1 ++ [.scale (1 / s.eval C.env fidO.1) fidO.2], acc.2.1,
              acc.2.2.1 ++ [s], acc.2.2.2)
        | none =>
            match obj.normA with
            | none => Except.error Err.typeErr
            | some nrm =>
                Except.ok (acc.1 ++ [.scale (1 / nrm.eval C.env fidO.1) fidO.2], acc.2.1,
                  acc.2.2.1, acc.2.2.2 ++ [nrm])
      else Except.ok (acc.1, acc.2.1 ++ [obj], acc.2.2.1, acc.2.2.2))
    ([], [], [], [])
  let sepSED ← (match parts.2.2.1 with
    | [] => Except.ok (none : Option SpecE)
    | [s] => Except.ok (some s)
    | _ => Except.error Err.multipleSED)
  let insepObj ← (match parts.2.1 with
    | [] => Except.error Err.other
    | [o] => Except.ok o
    | os => mkConv C os)
  let insepObj ← (match sepSED with
    | some s => mkTransform C insepObj (.cM idMat) zeroOff s
    | none => Except.ok insepObj)
  let insepObj ← parts.2.2.2.foldlM
    (fun o nrm => mkTransform C o (.cM idMat) zeroOff nrm) insepObj
  let eff ← effectiveProf C insepObj bp midpt
  .ok (C.render (.convL (parts.1 ++ [eff])) (some image) add)

/-- The draw dispatch with fuel.  ChromaticSum.drawImage (lines
1694-1730) draws the first summand with the caller accumulation flag and
adds the remaining summands into the result; ChromaticConvolution
.drawImage (lines 1912-2080) requires an SED, hands separable
convolutions to the base engine (dropping the integrator choice, which
the source does not forward there), distributes over the first
ChromaticSum convolutant by drawing one reduced convolution per summand
(the first with the caller accumulation flag, the rest added into the
running image), and otherwise runs the atomic branch;
InterpolatedChromaticObject and ChromaticTransformation use their own
draw methods; every other class draws through the base engine.  The fuel
dominates the recursion depth (each recursive call strictly decreases the
payload size); fuel exhaustion is unreachable from the wrapper below. -/
def drawF {Img : Type} [AddCommMonoid Img] [Module ℚ Img] (C : Ctx Img) :
    ℕ → Node Img → Bandpass → Option Img → Bool → Bool → Except Err Img
  | 0, _, _, _, _, _ => .error .other
  | fu + 1, n, bp, imgOpt, add, midpt =>
      match n with
      | .sum a l =>
          match a.sed with
          | none => .error .missingSED
          | some _ =>
              match l with
              | [] => .error .other
              | x :: rest => do
                  let im0 ← drawF C fu x bp imgOpt add midpt
                  rest.foldlM (fun acc o => drawF C fu o bp (some acc) true midpt) im0
      | .conv a l =>
          match a.sed with
          | none => .error .missingSED
          | some _ =>
              if a.sep then baseDraw C n bp imgOpt add false
              else
                match firstSum l with
                | some fs =>
                    match fs.2 with
                    | [] => .error .other
                    | s0 :: srest => do
                        let m0 ← mkConv C (l.eraseIdx fs.1 ++ [s0])
                        let im0 ← drawF C fu m0 bp imgOpt add midpt
                        srest.foldlM
                          (fun acc sk => do
                            let mk ← mkConv C (l.eraseIdx fs.1 ++ [sk])
                            drawF C fu mk bp (some acc) true midpt) im0
                | none => convAtomic C n l bp imgOpt add midpt
      | .interpN _ _ _ _ _ _ _ => interpDraw C n bp imgOpt add midpt
      | .transform _ _ _ _ _ => transformDraw C n bp imgOpt add midpt
      | _ => baseDraw C n bp imgOpt add midpt

/-- drawImage with dynamic dispatch: the payload size bounds the recursion
depth, so it serves as fuel. -/
def draw {Img : Type} [AddCommMonoid Img] [Module ℚ Img] (C : Ctx Img) (n : Node Img)
    (bp : Bandpass) (imgOpt : Option Img) (add : Bool) (midpt : Bool) : Except Err Img :=
  drawF C n.sz n bp imgOpt add midpt

/-! Basic facts about the payload-size measure. -/

theorem Node.sz_pos {Img : Type} (n : Node Img) : 0 < n.sz := by
  cases n <;> simp [Node.sz]

theorem szList_append {Img : Type} (l1 l2 : List (Node Img)) :
    szList (l1 ++ l2) = szList l1 + szList l2 := by
  induction l1 with
  | nil => simp [szList]
  | cons x xs ih => simp [szList, ih]; ring

theorem szList_mem_le {Img : Type} {x : Node Img} {l : List (Node Img)} (h : x ∈ l) :
    x.sz ≤ szList l := by
  induction l with
  | nil => cases h
  | cons y ys ih =>
      rcases List.mem_cons.mp h with rfl | h2
      · simp [szList]
      · have := ih h2
        simp [szList]; omega

theorem szList_eraseIdx {Img : Type} (l : List (Node Img)) (i : ℕ) (hi : i < l.length) :
    szList l = (l.get ⟨i, hi⟩).sz + szList (l.eraseIdx i) := by
  induction l generalizing i with
  | nil => simp at hi
  | cons x xs ih =>
      cases i with
      | zero => simp [szList, List.eraseIdx]
      | succ j =>
          have hj : j < xs.length := by simpa using hi
          have := ih j hj
          simp [szList, List.eraseIdx, this]
          omega

theorem convFlatten_sz {Img : Type} (l : List (Node Img)) :
    szList (convFlatten l) ≤ szList l := by
  induction l with
  | nil => simp [convFlatten, szList]
  | cons x xs ih =>
      cases x <;>
        simp [convFlatten, szList_append, szList, Node.sz] <;> omega

theorem mkConv_ok_shape {Img : Type} {C : Ctx Img} {args : List (Node Img)} {m : Node Img}
    (h : mkConv C args = .ok m) : ∃ a, m = .conv a (convFlatten args) := by
  unfold mkConv at h
  cases args with
  | nil => simp at h
  | cons x xs =>
      simp only [bind, Except.bind] at h
      cases hf : List.foldlM (m := Except Err) _ ((none : Option SpecE), (SpecE.c 1)) (x :: xs) with
      | error e => rw [hf] at h; simp at h
      | ok sn =>
          rw [hf] at h
          simp only [Except.ok.injEq] at h
          exact ⟨_, h.symm⟩

theorem mkConv_sz {Img : Type} {C : Ctx Img} {args : List (Node Img)} {m : Node Img}
    (h : mkConv C args = .ok m) : m.sz ≤ 1 + szList args := by
  obtain ⟨a, rfl⟩ := mkConv_ok_shape h
  simp [Node.sz]
  exact convFlatten_sz args

theorem firstSum_go_spec {Img : Type} {l : List (Node Img)} {j i : ℕ}
    {sl : List (Node Img)} (h : firstSum.go j l = some (i, sl)) :
    ∃ (k : ℕ) (hk : k < l.length) (a : NAttr), i = j + k ∧ l.get ⟨k, hk⟩ = .sum a sl := by
  induction l generalizing j with
  | nil => simp [firstSum.go] at h
  | cons x xs ih =>
      cases x with
      | sum a sl0 =>
          simp [firstSum.go] at h
          exact ⟨0, by simp, a, by omega, by simp [h]⟩
      | chrom a g =>
          simp only [firstSum.go] at h
          obtain ⟨k, hk, a2, hi, hg⟩ := ih h
          exact ⟨k + 1, by simpa using Nat.succ_lt_succ hk, a2, by omega, by simpa using hg⟩
      | cleaf a i0 =>
          simp only [firstSum.go] at h
          obtain ⟨k, hk, a2, hi, hg⟩ := ih h
          exact ⟨k + 1, by simpa using Nat.succ_lt_succ hk, a2, by omega, by simpa using hg⟩
      | conv a l0 =>
          simp only [firstSum.go] at h
          obtain ⟨k, hk, a2, hi, hg⟩ := ih h
          exact ⟨k + 1, by simpa using Nat.succ_lt_succ hk, a2, by omega, by simpa using hg⟩
      | transform a o j0 o0 f0 =>
          simp only [firstSum.go] at h
          obtain ⟨k, hk, a2, hi, hg⟩ := ih h
          exact ⟨k + 1, by simpa using Nat.succ_lt_succ hk, a2, by omega, by simpa using hg⟩
      | deconvN a o =>
          simp only [firstSum.go] at h
          obtain ⟨k, hk, a2, hi, hg⟩ := ih h
          exact ⟨k + 1, by simpa using Nat.succ_lt_succ hk, a2, by omega, by simpa using hg⟩
      | autoconvN a o =>
          simp only [firstSum.go] at h
          obtain ⟨k, hk, a2, hi, hg⟩ := ih h
          exact ⟨k + 1, by simpa using Nat.succ_lt_succ hk, a2, by omega, by simpa using hg⟩
      | autocorrN a o =>
          simp only [firstSum.go] at h
          obtain ⟨k, hk, a2, hi, hg⟩ := ih h
          exact ⟨k + 1, by simpa using Nat.succ_lt_succ hk, a2, by omega, by simpa using hg⟩
      | fsqrtN a o =>
          simp only [firstSum.go] at h
          obtain ⟨k, hk, a2, hi, hg⟩ := ih h
          exact ⟨k + 1, by simpa using Nat.succ_lt_succ hk, a2, by omega, by simpa using hg⟩
      | interpN a o w im s mk ov =>
          simp only [firstSum.go] at h
          obtain ⟨k, hk, a2, hi, hg⟩ := ih h
          exact ⟨k + 1, by simpa using Nat.succ_lt_succ hk, a2, by omega, by simpa using hg⟩

theorem firstSum_spec {Img : Type} {l : List (Node Img)} {i : ℕ} {sl : List (Node Img)}
    (h : firstSum l = some (i, sl)) :
    ∃ (hk : i < l.length) (a : NAttr), l.get ⟨i, hk⟩ = .sum a sl := by
  obtain ⟨k, hk, a, hi, hg⟩ := firstSum_go_spec (h := h)
  obtain rfl : i = k := by omega
  exact ⟨hk, a, hg⟩

/-- A monadic left fold only depends on the body at the members. -/
theorem foldlM_congr_mem {m : Type → Type} [Monad m] [LawfulMonad m] {α β : Type}
    {l : List α} {f g : β → α → m β} {b : β}
    (h : ∀ x ∈ l, ∀ acc, f acc x = g acc x) : l.foldlM f b = l.foldlM g b := by
  induction l generalizing b with
  | nil => rfl
  | cons x xs ih =>
      simp only [List.foldlM_cons]
      rw [h x (by simp)]
      exact bind_congr fun b2 => ih (fun y hy acc => h y (by simp [hy]) acc)

/-- Size bound for the reduced convolutions of the distribution loop: a
convolution of the other convolutants with one summand of the sum child is
strictly smaller than the original convolutant list. -/
theorem distSz {Img : Type} {C : Ctx Img} {l : List (Node Img)} {i : ℕ} {a2 : NAttr}
    {sl : List (Node Img)} {m sk : Node Img} (hi : i < l.length)
    (hget : l.get ⟨i, hi⟩ = .sum a2 sl) (hsk : sk ∈ sl)
    (hm : mkConv C (l.eraseIdx i ++ [sk]) = .ok m) : m.sz ≤ szList l := by
  have h1 := mkConv_sz hm
  have h2 := szList_eraseIdx l i hi
  have h3 : szList (l.eraseIdx i ++ [sk]) = szList (l.eraseIdx i) + sk.sz := by
    simp [szList_append, szList]
  have h4 : sk.sz ≤ szList sl := szList_mem_le hsk
  have h5 : (l.get ⟨i, hi⟩).sz = 1 + szList sl := by rw [hget]; simp [Node.sz]
  omega

/-- The fuelled draw dispatch does not depend on the fuel once the fuel
covers the payload size: every recursive call strictly decreases the
payload size. -/
theorem drawF_irrel {Img : Type} [AddCommMonoid Img] [Module ℚ Img] (C : Ctx Img) :
    ∀ (f g : ℕ) (n : Node Img) (bp : Bandpass) (imgOpt : Option Img) (add mp : Bool),
      n.sz ≤ f → n.sz ≤ g →
      drawF C f n bp imgOpt add mp = drawF C g n bp imgOpt add mp := by
  intro f
  induction f using Nat.strong_induction_on with
  | _ f IH =>
    intro g n bp imgOpt add mp hf hg
    have hpos := Node.sz_pos n
    match f, g with
    | 0, _ => omega
    | _ + 1, 0 => omega
    | f + 1, g + 1 =>
      cases n with
      | sum a l =>
          have hsf : szList l ≤ f := by simp [Node.sz] at hf; omega
          have hsg : szList l ≤ g := by simp [Node.sz] at hg; omega
          simp only [drawF]
          cases a.sed with
          | none => rfl
          | some s =>
            cases l with
            | nil => rfl
            | cons x rest =>
              have hxr : x.sz + szList rest = szList (x :: rest) := by simp [szList]
              have hx : drawF C f x bp imgOpt add mp = drawF C g x bp imgOpt add mp := by
                have h1 : x.sz ≤ f := by omega
                have h2 : x.sz ≤ g := by omega
                exact IH f (by omega) g x bp imgOpt add mp h1 h2
              simp only [bind, Except.bind]
              rw [hx]
              cases drawF C g x bp imgOpt add mp with
              | error e => rfl
              | ok im0 =>
                  exact foldlM_congr_mem (fun o ho acc => by
                    have h1 : o.sz ≤ f := le_trans (by
                      have := szList_mem_le ho; omega) hsf
                    have h2 : o.sz ≤ g := le_trans (by
                      have := szList_mem_le ho; omega) hsg
                    exact IH f (by omega) g o bp (some acc) true mp (by
                      have := szList_mem_le ho; omega) (by
                      have := szList_mem_le ho; omega))
      | conv a l =>
          have hsf : szList l ≤ f := by simp [Node.sz] at hf; omega
          have hsg : szList l ≤ g := by simp [Node.sz] at hg; omega
          simp only [drawF]
          cases a.sed with
          | none => rfl
          | some s =>
            cases hsep : a.sep with
            | true => rfl
            | false =>
              cases hfs : firstSum l with
              | none => rfl
              | some p =>
                  obtain ⟨i, sl⟩ := p
                  obtain ⟨hi, a2, hget⟩ := firstSum_spec hfs
                  cases sl with
                  | nil => rfl
                  | cons s0 srest =>
                      simp only [Bool.false_eq_true, if_false, bind, Except.bind]
                      cases hmk : mkConv C (l.eraseIdx i ++ [s0]) with
                      | error e => rfl
                      | ok m0 =>
                          have hm0 : m0.sz ≤ szList l :=
                            distSz hi hget (by simp) hmk
                          have hdm0 : drawF C f m0 bp imgOpt add mp =
                              drawF C g m0 bp imgOpt add mp :=
                            IH f (by omega) g m0 bp imgOpt add mp (by omega) (by omega)
                          simp only [hdm0]
                          cases drawF C g m0 bp imgOpt add mp with
                          | error e => rfl
                          | ok im0 =>
                              exact foldlM_congr_mem (fun sk hsk acc => by
                                cases hmk2 : mkConv C (l.eraseIdx i ++ [sk]) with
                                | error e => rfl
                                | ok mk =>
                                    have hmsz : mk.sz ≤ szList l :=
                                      distSz hi hget (by simp [hsk]) hmk2
                                    exact IH f (by omega) g mk bp (some acc) true mp
                                      (by omega) (by omega))
      | chrom a gg => rfl
      | cleaf a i => rfl
      | transform a o j o2 fr => rfl
      | deconvN a o => rfl
      | autoconvN a o => rfl
      | autocorrN a o => rfl
      | fsqrtN a o => rfl
      | interpN a o w im s mk ov => rfl

/-- drawImage at sufficient fuel equals drawImage. -/
theorem drawF_eq_draw {Img : Type} [AddCommMonoid Img] [Module ℚ Img] (C : Ctx Img)
    {f : ℕ} {n : Node Img} (bp : Bandpass) (imgOpt : Option Img) (add mp : Bool)
    (hf : n.sz ≤ f) : drawF C f n bp imgOpt add mp = draw C n bp imgOpt add mp :=
  drawF_irrel C f n.sz n bp imgOpt add mp hf le_rfl

/-! Concrete external collaborators over rational images, used to
instantiate the theorems below on closed inputs. -/

mutual

/-- A simple flux semantics for profiles over rational images: base
profiles have unit flux and an image is its own flux. -/
def qflux : GSExpr ℚ → ℚ
  | .base _ => 1
  | .scale q g => q * qflux g
  | .addL l => qfluxSum l
  | .convL l => qfluxProd l
  | .transformG g jac _ fr => qflux g * fr * |matDet jac|
  | .deconv g => 1 / qflux g
  | .autoconv g => qflux g * qflux g
  | .autocorr g => qflux g * qflux g
  | .fsqrt g => qflux g
  | .interpImage im _ => im

/-- Sum of simple fluxes. -/
def qfluxSum : List (GSExpr ℚ) → ℚ
  | [] => 0
  | g :: l => qflux g + qfluxSum l

/-- Product of simple fluxes. -/
def qfluxProd : List (GSExpr ℚ) → ℚ
  | [] => 1
  | g :: l => qflux g * qfluxProd l

end

/-- A concrete context over rational images: rendering an image records
the flux, accumulation adds. -/
def wCtx : Ctx ℚ where
  env :=
    { sedF := fun i w => if i = 0 then 1 else w * w
      sedWL := fun i => if i = 0 then [0, 2] else [0, 1, 2]
      wfF := fun _ _ => 1
      jacF := fun _ _ => idMat
      offF := fun _ _ => (0, 0)
      sqrtQ := fun q => q }
  gsFlux := fun _ => 1
  imFlux := id
  cleafEval := fun i _ => .base (100 + i)
  setup := fun _ img => img.getD 0
  render := fun g img add => (if add then img.getD 0 else 0) + qflux g
  zeroLike := fun _ => 0
  int1d := fun f a b => (b - a) * f ((a + b) / 2)
  sampleIntegrate := fun _ fev bp img => do
    let g ← fev bp.eff
    .ok (img + qflux g)
  contIntegrate := fun _ fev bp img => do
    let g ← fev bp.eff
    .ok (img + qflux g)
  tableBandpass := fun bp wl => { bp with wl := wl }
  nyquistScale := fun _ => 1
  goodImageSize := fun _ _ => 1
  stepK := fun _ => 1
  maxK := fun _ => 1
  renderGrid := fun g _ _ => qflux g

/-- C5: drawImage on a node whose SED attribute is None fails immediately
with the MissingSED error, whatever the class of the node: every drawImage
implementation (base, interpolated, transformation, sum, convolution)
checks the SED first, so no image is rendered or modified. -/
theorem drawImage_missingSED {Img : Type} [AddCommMonoid Img] [Module ℚ Img] (C : Ctx Img)
    (n : Node Img) (bp : Bandpass) (imgOpt : Option Img) (add mp : Bool)
    (h : n.sedA = none) : draw C n bp imgOpt add mp = .error .missingSED := by
  obtain ⟨k, hk⟩ : ∃ k, n.sz = k + 1 :=
    ⟨n.sz - 1, by have := Node.sz_pos n; omega⟩
  rw [draw, hk]
  cases n with
  | sum a l =>
      simp only [Node.sedA, Node.attr] at h
      simp [drawF, h]
  | conv a l =>
      simp only [Node.sedA, Node.attr] at h
      simp [drawF, h]
  | interpN a o w im s mk ov =>
      simp only [Node.sedA, Node.attr] at h
      simp [drawF, interpDraw, Node.sedA, Node.attr, h]
  | transform a o j o2 fr =>
      simp only [Node.sedA, Node.attr] at h
      simp [drawF, transformDraw, h]
  | chrom a g =>
      simp only [Node.sedA, Node.attr] at h
      simp [drawF, baseDraw, Node.sedA, Node.attr, h]
  | cleaf a i =>
      simp only [Node.sedA, Node.attr] at h
      simp [drawF, baseDraw, Node.sedA, Node.attr, h]
  | deconvN a o =>
      simp only [Node.sedA, Node.attr] at h
      simp [drawF, baseDraw, Node.sedA, Node.attr, h]
  | autoconvN a o =>
      simp only [Node.sedA, Node.attr] at h
      simp [drawF, baseDraw, Node.sedA, Node.attr, h]
  | autocorrN a o =>
      simp only [Node.sedA, Node.attr] at h
      simp [drawF, baseDraw, Node.sedA, Node.attr, h]
  | fsqrtN a o =>
      simp only [Node.sedA, Node.attr] at h
      simp [drawF, baseDraw, Node.sedA, Node.attr, h]

/-- Witness for C5: an inseparable chromatic leaf (a PSF-like object with
no SED) cannot be drawn. -/
theorem drawImage_missingSED_witness :
    (mkCleaf 0 : Node ℚ).sedA = none ∧
      draw wCtx (mkCleaf 0) ⟨0, fun _ => 1, 0, 2, 1, []⟩ none false false =
        .error .missingSED :=
  ⟨rfl, drawImage_missingSED wCtx (mkCleaf 0) ⟨0, fun _ => 1, 0, 2, 1, []⟩ none false false rfl⟩

/-- C1: the convolution optimizer distributes over a Sum convolutant.
For a ChromaticConvolution that carries an SED, is not separable (the
separable case is handed to the base engine before the optimizer runs),
and has a ChromaticSum among its convolutants, drawImage equals drawing
one reduced convolution per summand of the first such Sum — the
convolution of the remaining convolutants with that summand — with the
first drawn under the caller accumulation flag and every further one added
into the previously started image. -/
theorem convDraw_distributes {Img : Type} [AddCommMonoid Img] [Module ℚ Img] (C : Ctx Img)
    (a : NAttr) (l : List (Node Img)) (bp : Bandpass) (imgOpt : Option Img) (add mp : Bool)
    (i : ℕ) (s0 : Node Img) (srest : List (Node Img)) (s : SpecE)
    (hsed : a.sed = some s) (hsep : a.sep = false)
    (hfs : firstSum l = some (i, s0 :: srest)) :
    draw C (.conv a l) bp imgOpt add mp =
      (do
        let m0 ← mkConv C (l.eraseIdx i ++ [s0])
        let im0 ← draw C m0 bp imgOpt add mp
        srest.foldlM (fun acc sk => do
          let mk ← mkConv C (l.eraseIdx i ++ [sk])
          draw C mk bp (some acc) true mp) im0) := by
  obtain ⟨hi, a2, hget⟩ := firstSum_spec hfs
  have hsz : (Node.conv a l : Node Img).sz = szList l + 1 := by simp [Node.sz]; omega
  rw [draw, hsz]
  simp only [drawF, hsed, hsep, hfs, Bool.false_eq_true, if_false, bind, Except.bind]
  cases hmk : mkConv C (l.eraseIdx i ++ [s0]) with
  | error e => rfl
  | ok m0 =>
      have hb0 : m0.sz ≤ szList l := distSz hi hget (by simp) hmk
      have hd0 : drawF C (szList l) m0 bp imgOpt add mp = draw C m0 bp imgOpt add mp :=
        drawF_eq_draw C bp imgOpt add mp hb0
      simp only [hd0]
      cases draw C m0 bp imgOpt add mp with
      | error e => rfl
      | ok im0 =>
          exact foldlM_congr_mem (fun sk hsk acc => by
            cases hmk2 : mkConv C (l.eraseIdx i ++ [sk]) with
            | error e => rfl
            | ok mk =>
                have hbk : mk.sz ≤ szList l := distSz hi hget (by simp [hsk]) hmk2
                exact drawF_eq_draw C bp (some acc) true mp hbk)

/-- Witness for C1: a convolution of an inseparable chromatic PSF with the
sum of two SED-bearing leaves. -/
theorem convDraw_distributes_witness :
    ((⟨false, false, some (.sedBase 0), none, []⟩ : NAttr).sed = some (.sedBase 0) ∧
      (⟨false, false, some (.sedBase 0), none, []⟩ : NAttr).sep = false ∧
      firstSum [mkCleaf 0,
        Node.sum ⟨false, false, some (.sedAdd (.sedBase 0) (.sedBase 1)), none, []⟩
          [mkChromatic wCtx (.base 0) (.sedBase 0), mkChromatic wCtx (.base 1) (.sedBase 1)]] =
        some (1, [mkChromatic wCtx (.base 0) (.sedBase 0),
          mkChromatic wCtx (.base 1) (.sedBase 1)])) ∧
    draw wCtx
        (.conv ⟨false, false, some (.sedBase 0), none, []⟩
          [mkCleaf 0,
            Node.sum ⟨false, false, some (.sedAdd (.sedBase 0) (.sedBase 1)), none, []⟩
              [mkChromatic wCtx (.base 0) (.sedBase 0),
                mkChromatic wCtx (.base 1) (.sedBase 1)]])
        ⟨0, fun _ => 1, 0, 2, 1, []⟩ none false false =
      (do
        let m0 ← mkConv wCtx
          (([mkCleaf 0,
              Node.sum ⟨false, false, some (.sedAdd (.sedBase 0) (.sedBase 1)), none, []⟩
                [mkChromatic wCtx (.base 0) (.sedBase 0),
                  mkChromatic wCtx (.base 1) (.sedBase 1)]].eraseIdx 1) ++
            [mkChromatic wCtx (.base 0) (.sedBase 0)])
        let im0 ← draw wCtx m0 ⟨0, fun _ => 1, 0, 2, 1, []⟩ none false false
        [mkChromatic wCtx (.base 1) (.sedBase 1)].foldlM (fun acc sk => do
          let mk ← mkConv wCtx
            (([mkCleaf 0,
                Node.sum ⟨false, false, some (.sedAdd (.sedBase 0) (.sedBase 1)), none, []⟩
                  [mkChromatic wCtx (.base 0) (.sedBase 0),
                    mkChromatic wCtx (.base 1) (.sedBase 1)]].eraseIdx 1) ++ [sk])
          draw wCtx mk ⟨0, fun _ => 1, 0, 2, 1, []⟩ (some acc) true false) im0) := by
  refine ⟨⟨rfl, rfl, ?_⟩, ?_⟩
  · simp [firstSum, firstSum.go, mkCleaf]
  · exact convDraw_distributes wCtx _ _ _ _ _ _ 1 _ _ (.sedBase 0) rfl rfl
      (by simp [firstSum, firstSum.go, mkCleaf])

/-- The SED accumulation of the convolution constructor errors with the
invalid-composition value as soon as a second SED-bearing convolutant
appears, provided every convolutant carries an SED or a norm (so that the
norm branch cannot crash first). -/
theorem convFold_twoSED {Img : Type} :
    ∀ (args : List (Node Img)) (acc : Option SpecE × SpecE),
      (∀ x ∈ args, x.sedA.isSome ∨ x.normA.isSome) →
      2 ≤ (args.filter (fun x => x.sedA.isSome)).length +
        (if acc.1.isSome then 1 else 0) →
      args.foldlM convStep acc = .error .invalidComposition := by
  intro args
  induction args with
  | nil => intro acc _ hc; simp at hc; split at hc <;> omega
  | cons x xs ih =>
      intro acc hall hc
      cases hx : x.sedA with
      | some s =>
          cases hacc : acc.1 with
          | some s2 =>
              simp [List.foldlM_cons, convStep, hx, hacc, bind, Except.bind]
          | none =>
              rw [List.foldlM_cons]
              have hstep : convStep acc x = .ok (some s, acc.2) := by
                simp [convStep, hx, hacc]
              rw [hstep]
              simp only [bind, Except.bind]
              apply ih (some s, acc.2) (fun y hy => hall y (by simp [hy]))
              simp only [List.filter_cons, hx] at hc
              simp only [hacc] at hc
              simp at hc ⊢
              omega
      | none =>
          rcases hall x (by simp) with hs | hn
          · rw [hx] at hs; simp at hs
          · obtain ⟨nrm, hnrm⟩ := Option.isSome_iff_exists.mp hn
            rw [List.foldlM_cons]
            have hstep : convStep acc x = .ok (acc.1, acc.2.fnProd nrm) := by
              simp [convStep, hx, hnrm]
            rw [hstep]
            simp only [bind, Except.bind]
            apply ih (acc.1, acc.2.fnProd nrm) (fun y hy => hall y (by simp [hy]))
            simp only [List.filter_cons, hx] at hc
            simp at hc ⊢
            omega

/-- C6: each invalid composition is rejected at construction with the
invalid-composition error, and no node is produced (the constructor
returns an error value): a Convolution given two or more SED-bearing
convolutants; a Deconvolution, AutoConvolution, AutoCorrelation or
Fourier-sqrt given an SED-bearing argument; a Sum mixing SED-carrying with
norm-carrying summands. -/
theorem construction_invalidComposition {Img : Type} (C : Ctx Img) :
    (∀ args : List (Node Img),
        (∀ x ∈ args, x.sedA.isSome ∨ x.normA.isSome) →
        2 ≤ (args.filter (fun x => x.sedA.isSome)).length →
        mkConv C args = .error .invalidComposition)
    ∧ (∀ obj : Node Img, obj.sedA.isSome →
        mkDeconv obj = .error .invalidComposition ∧
        mkAutoConv obj = .error .invalidComposition ∧
        mkAutoCorr obj = .error .invalidComposition ∧
        mkFSqrt obj = .error .invalidComposition)
    ∧ (∀ args : List (Node Img),
        (∃ x ∈ args, x.sedA.isSome) → (∃ x ∈ args, x.normA.isSome) →
        mkSum C args = .error .invalidComposition) := by
  refine ⟨?_, ?_, ?_⟩
  · intro args hall hc
    have hfold := convFold_twoSED args (none, .c 1) hall (by simpa using hc)
    cases args with
    | nil => simp at hc
    | cons x xs =>
        unfold mkConv
        rw [hfold]
        rfl
  · intro obj h
    exact ⟨by simp [mkDeconv, h], by simp [mkAutoConv, h], by simp [mkAutoCorr, h],
      by simp [mkFSqrt, h]⟩
  · intro args hs hn
    cases args with
    | nil => obtain ⟨x, hx, _⟩ := hs; cases hx
    | cons x xs =>
        have hS : (x :: xs).any (fun a => a.sedA.isSome) = true := by
          obtain ⟨y, hy, hy2⟩ := hs
          exact List.any_eq_true.mpr ⟨y, hy, hy2⟩
        have hN : (x :: xs).any (fun a => a.normA.isSome) = true := by
          obtain ⟨y, hy, hy2⟩ := hn
          exact List.any_eq_true.mpr ⟨y, hy, hy2⟩
        rw [mkSum]
        show mkSumF C (xs.length + 1 + 1) (x :: xs) = .error .invalidComposition
        unfold mkSumF
        simp [hS, hN]

/-- Witness for C6: two SED-bearing leaves cannot be convolved, an
SED-bearing leaf cannot be deconvolved, and an SED-bearing leaf cannot be
summed with a norm-carrying leaf. -/
theorem construction_invalidComposition_witness :
    ((∀ x ∈ [mkChromatic wCtx (.base 0) (.sedBase 0), mkChromatic wCtx (.base 1) (.sedBase 1)],
        x.sedA.isSome ∨ x.normA.isSome) ∧
      2 ≤ (([mkChromatic wCtx (.base 0) (.sedBase 0),
        mkChromatic wCtx (.base 1) (.sedBase 1)]).filter (fun x => x.sedA.isSome)).length) ∧
    mkConv wCtx [mkChromatic wCtx (.base 0) (.sedBase 0),
        mkChromatic wCtx (.base 1) (.sedBase 1)] = .error .invalidComposition ∧
    mkDeconv (mkChromatic wCtx (.base 0) (.sedBase 0)) = .error .invalidComposition ∧
    mkSum wCtx [mkChromatic wCtx (.base 0) (.sedBase 0), mkCleaf 0] =
      .error .invalidComposition := by
  have h1 : ∀ x ∈ [mkChromatic wCtx (.base 0) (.sedBase 0),
      mkChromatic wCtx (.base 1) (.sedBase 1)], x.sedA.isSome ∨ x.normA.isSome := by
    intro x hx
    rcases List.mem_cons.mp hx with rfl | hx2
    · left; rfl
    · rcases List.mem_cons.mp hx2 with rfl | hx3
      · left; rfl
      · cases hx3
  have h2 : 2 ≤ (([mkChromatic wCtx (.base 0) (.sedBase 0),
      mkChromatic wCtx (.base 1) (.sedBase 1)]).filter (fun x => x.sedA.isSome)).length := by
    simp [mkChromatic, Node.sedA, Node.attr]
  refine ⟨⟨h1, h2⟩, ?_, ?_, ?_⟩
  · exact (construction_invalidComposition wCtx).1 _ h1 h2
  · exact ((construction_invalidComposition wCtx).2.1 _ (by rfl)).1
  · exact (construction_invalidComposition wCtx).2.2 _
      ⟨mkChromatic wCtx (.base 0) (.sedBase 0), by simp, by rfl⟩
      ⟨mkCleaf 0, by simp, by rfl⟩

/-- The SED-xor-norm shape of a node: exactly one of the SED attribute
and the norm attribute is non-null. -/
def sedXorNorm {Img : Type} (n : Node Img) : Prop :=
  n.sedA.isSome = !n.normA.isSome

/-- Every successful Sum construction satisfies the SED-xor-norm shape. -/
theorem mkSumF_xor {Img : Type} {C : Ctx Img} {fu : ℕ} {args : List (Node Img)}
    {n : Node Img} (h : mkSumF C fu args = .ok n) : sedXorNorm n := by
  match fu, args with
  | 0, _ => simp [mkSumF] at h
  | _ + 1, [] => simp [mkSumF] at h
  | fu + 1, x :: xs =>
      unfold mkSumF at h
      simp only [bind, Except.bind] at h
      repeat' split at h
      all_goals first
        | (simp only [Except.ok.injEq] at h; subst h;
            simp [sedXorNorm, Node.sedA, Node.normA, Node.attr])
        | simp at h

/-- Every successful Convolution construction satisfies the SED-xor-norm
shape. -/
theorem mkConv_xor {Img : Type} {C : Ctx Img} {args : List (Node Img)} {n : Node Img}
    (h : mkConv C args = .ok n) : sedXorNorm n := by
  unfold mkConv at h
  cases args with
  | nil => simp at h
  | cons x xs =>
      simp only [bind, Except.bind] at h
      repeat' split at h
      all_goals first
        | (simp only [Except.ok.injEq] at h; subst h;
            simp [sedXorNorm, Node.sedA, Node.normA, Node.attr])
        | simp at h

/-- Every successful Transformation construction satisfies the
SED-xor-norm shape. -/
theorem mkTransformF_xor {Img : Type} {C : Ctx Img} {fu : ℕ} {obj : Node Img} {j : JacE}
    {o : OffE} {fr : SpecE} {n : Node Img} (h : mkTransformF C fu obj j o fr = .ok n) :
    sedXorNorm n := by
  match fu with
  | 0 => simp [mkTransformF] at h
  | fu + 1 =>
      unfold mkTransformF at h
      simp only [bind, Except.bind] at h
      split at h
      · simp at h
      · rename_i sn heq
        have hx : sn.1.isSome = !sn.2.isSome := by
          repeat' split at heq
          all_goals first
            | (simp only [Except.ok.injEq] at heq; cases heq; rfl)
            | simp at heq
        repeat' split at h
        all_goals first
          | (simp only [Except.ok.injEq] at h; subst h;
              simp only [sedXorNorm, Node.sedA, Node.normA, Node.attr]; exact hx)
          | simp at h

/-- Nodes built by the constructors of the algebra: leaf-with-SED
attachment, the inseparable leaves, sum, convolution, affine
transformation, deconvolution, auto-convolution, auto-correlation,
Fourier square root, and interpolation. -/
inductive Built {Img : Type} [AddCommMonoid Img] [Module ℚ Img] (C : Ctx Img) :
    Node Img → Prop where
  | chromB (g : GSExpr Img) (sed : SpecE) : Built C (mkChromatic C g sed)
  | cleafB (i : ℕ) : Built C (mkCleaf i)
  | sumB {args : List (Node Img)} {n : Node Img} :
      (∀ x ∈ args, Built C x) → mkSum C args = .ok n → Built C n
  | convB {args : List (Node Img)} {n : Node Img} :
      (∀ x ∈ args, Built C x) → mkConv C args = .ok n → Built C n
  | transformB {obj n : Node Img} (j : JacE) (o : OffE) (fr : SpecE) :
      Built C obj → mkTransform C obj j o fr = .ok n → Built C n
  | deconvB {obj n : Node Img} : Built C obj → mkDeconv obj = .ok n → Built C n
  | autoconvB {obj n : Node Img} : Built C obj → mkAutoConv obj = .ok n → Built C n
  | autocorrB {obj n : Node Img} : Built C obj → mkAutoCorr obj = .ok n → Built C n
  | fsqrtB {obj n : Node Img} : Built C obj → mkFSqrt obj = .ok n → Built C n
  | interpB {obj n : Node Img} (waves : List ℚ) (ov : ℚ) :
      Built C obj → mkInterp C obj waves ov = .ok n → Built C n

/-- C4: every node produced by a constructor of the algebra has exactly
one of the SED attribute and the norm attribute non-null. -/
theorem built_sed_xor_norm {Img : Type} [AddCommMonoid Img] [Module ℚ Img] {C : Ctx Img}
    (n : Node Img) (hb : Built C n) : n.sedA.isSome = !n.normA.isSome := by
  induction hb with
  | chromB g sed => rfl
  | cleafB i => rfl
  | sumB _ hok _ => exact mkSumF_xor hok
  | convB _ hok _ => exact mkConv_xor hok
  | transformB j o fr _ hok _ => exact mkTransformF_xor hok
  | deconvB _ hok ih =>
      unfold mkDeconv at hok
      split at hok
      · simp at hok
      · split at hok
        · simp at hok
        · simp only [Except.ok.injEq] at hok
          subst hok
          simp [Node.sedA, Node.normA, Node.attr]
  | autoconvB _ hok ih =>
      unfold mkAutoConv at hok
      split at hok
      · simp at hok
      · split at hok
        · simp at hok
        · simp only [Except.ok.injEq] at hok
          subst hok
          simp [Node.sedA, Node.normA, Node.attr]
  | autocorrB _ hok ih =>
      unfold mkAutoCorr at hok
      split at hok
      · simp at hok
      · split at hok
        · simp at hok
        · simp only [Except.ok.injEq] at hok
          subst hok
          simp [Node.sedA, Node.normA, Node.attr]
  | fsqrtB _ hok ih =>
      unfold mkFSqrt at hok
      split at hok
      · simp at hok
      · split at hok
        · simp at hok
        · simp only [Except.ok.injEq] at hok
          subst hok
          simp [Node.sedA, Node.normA, Node.attr]
  | interpB waves ov _ hok ih =>
      rename_i obj n2
      unfold mkInterp at hok
      simp only [bind, Except.bind] at hok
      split at hok
      · simp at hok
      · split at hok
        · simp at hok
        · simp only [Except.ok.injEq] at hok
          subst hok
          simpa [Node.sedA, Node.normA, Node.attr] using ih

/-- Witness for C4: a leaf with an SED attached, which carries the SED
and no norm. -/
theorem built_sed_xor_norm_witness :
    Built wCtx (mkChromatic wCtx (.base 0) (.sedBase 0)) ∧
      (mkChromatic wCtx (.base 0) (.sedBase 0)).sedA.isSome =
        !(mkChromatic wCtx (.base 0) (.sedBase 0)).normA.isSome :=
  ⟨Built.chromB (GSExpr.base 0) (.sedBase 0),
    built_sed_xor_norm _ (Built.chromB (GSExpr.base 0) (.sedBase 0))⟩

/-- The key a separable summand is partitioned under: its SED when the
Sum is SED-normalized, its norm otherwise. -/
def sKey {Img : Type} (b : Bool) (x : Node Img) : Option SpecE :=
  if b then x.sedA else x.normA

/-- The norm_dict built by appending each object of a list under its
partition key. -/
def dfold {Img : Type} (b : Bool) (l : List (Node Img))
    (d : List (Option SpecE × List (Node Img))) : List (Option SpecE × List (Node Img)) :=
  l.foldl (fun d x => dictApp d (sKey b x) x) d

theorem pstep_fold_spec {Img : Type} (b : Bool) (l : List (Node Img)) :
    ∀ (d : List (Option SpecE × List (Node Img))) (i : List (Node Img)),
      l.foldl (pstep b) (d, i) =
        (dfold b (l.filter (fun x => x.sep)) d, i ++ l.filter (fun x => !x.sep)) := by
  induction l with
  | nil => intro d i; simp [dfold]
  | cons x xs ih =>
      intro d i
      by_cases hs : x.sep = true
      · have hp : pstep b (d, i) x = (dictApp d (if b then x.sedA else x.normA) x, i) := by
          simp [pstep, hs]
        rw [List.foldl_cons, hp, ih]
        simp [dfold, sKey, hs]
      · have hs' : x.sep = false := by simpa using hs
        have hp : pstep b (d, i) x = (d, i ++ [x]) := by simp [pstep, hs']
        rw [List.foldl_cons, hp, ih]
        simp [hs']

theorem dictApp_length_le {Img : Type} :
    ∀ (d : List (Option SpecE × List (Node Img))) (k : Option SpecE) (o : Node Img),
      d.length ≤ (dictApp d k o).length
  | [], _, _ => by simp [dictApp]
  | (k0, os) :: rest, k, o => by
      simp only [dictApp]
      split
      · simp
      · simpa using dictApp_length_le rest k o

theorem dfold_length_le {Img : Type} (b : Bool) :
    ∀ (l : List (Node Img)) (d : List (Option SpecE × List (Node Img))),
      d.length ≤ (dfold b l d).length
  | [], _ => le_refl _
  | x :: xs, d =>
      le_trans (dictApp_length_le d (sKey b x) x) (dfold_length_le b xs _)

theorem dfold_len1 {Img : Type} (b : Bool) :
    ∀ (l : List (Node Img)) (k0 : Option SpecE) (os : List (Node Img)),
      ((dfold b l [(k0, os)]).length = 1 ↔ ∀ x ∈ l, sKey b x = k0)
  | [], _, _ => by simp [dfold]
  | x :: xs, k0, os => by
      by_cases hk : k0 = sKey b x
      · have h1 : dfold b (x :: xs) [(k0, os)] = dfold b xs [(k0, os ++ [x])] := by
          simp [dfold, dictApp, hk]
        rw [h1, dfold_len1 b xs k0 (os ++ [x])]
        constructor
        · intro hall y hy
          rcases List.mem_cons.mp hy with rfl | hy2
          · exact hk.symm
          · exact hall y hy2
        · intro hall y hy
          exact hall y (List.mem_cons_of_mem x hy)
      · have h2 : dfold b (x :: xs) [(k0, os)] =
            dfold b xs [(k0, os), (sKey b x, [x])] := by
          simp [dfold, dictApp, hk]
        rw [h2]
        constructor
        · intro h1
          have h3 := dfold_length_le b xs [(k0, os), (sKey b x, [x])]
          rw [h1] at h3
          simp at h3
        · intro hall
          exact absurd (hall x (List.mem_cons_self x xs)).symm hk

/-- First element of a dict fold over an empty dict. -/
theorem dfold_cons_nil {Img : Type} (b : Bool) (a : Node Img) (l : List (Node Img)) :
    dfold b (a :: l) [] = dfold b l [(sKey b a, [a])] := rfl

/-- Characterization of the separable flag of a successfully constructed
Sum: separable exactly when every summand is separable and all summands
agree on both the SED attribute and the norm attribute. -/
theorem sum_sep_core {Img : Type} {C : Ctx Img} {args : List (Node Img)} {n : Node Img}
    (h : mkSum C args = .ok n) :
    (n.sep = true ↔ (∀ x ∈ args, x.sep = true) ∧
      ∀ x ∈ args, ∀ y ∈ args, x.sedA = y.sedA ∧ x.normA = y.normA) := by
  match args with
  | [] => simp [mkSum, mkSumF] at h
  | a :: l =>
      unfold mkSum mkSumF at h
      simp only [bind, Except.bind] at h
      rw [pstep_fold_spec] at h
      simp only [List.nil_append] at h
      by_cases hmix : (((a :: l).any fun x => x.sedA.isSome) &&
          ((a :: l).any fun x => x.normA.isSome)) = true
      · rw [if_pos hmix] at h
        simp at h
      · rw [if_neg hmix] at h
        by_cases hc : ((((a :: l).filter fun x => !x.sep).isEmpty) &&
            ((dfold ((a :: l).any fun x => x.sedA.isSome)
              ((a :: l).filter fun x => x.sep) []).length == 1)) = true
        · rw [if_pos hc] at h
          have hca := hc
          simp only [Bool.and_eq_true] at hca
          obtain ⟨hce, hcl⟩ := hca
          have hall : ∀ x ∈ a :: l, x.sep = true := by
            intro x hx
            have he : ((a :: l).filter fun x => !x.sep) = [] :=
              List.isEmpty_iff.mp hce
            have := List.filter_eq_nil_iff.mp he x hx
            simpa using this
          have hsel : ((a :: l).filter fun x => x.sep) = a :: l :=
            List.filter_eq_self.mpr hall
          rw [hsel, dfold_cons_nil] at hcl h
          have hkeys : ∀ x ∈ l,
              sKey ((a :: l).any fun x => x.sedA.isSome) x =
                sKey ((a :: l).any fun x => x.sedA.isSome) a :=
            (dfold_len1 _ l _ [a]).mp (beq_iff_eq.mp hcl)
          have hpair : ∀ x ∈ a :: l, ∀ y ∈ a :: l, x.sedA = y.sedA ∧ x.normA = y.normA := by
            by_cases hb : ((a :: l).any fun x => x.sedA.isSome) = true

            · have hnorm : ∀ x ∈ a :: l, x.normA = none := by
                intro x hx
                have hn2 : ((a :: l).any fun x => x.normA.isSome) = false := by
                  cases hv : (a :: l).any fun x => x.normA.isSome
                  · rfl
                  · exact absurd (by simp [hb, hv]) hmix
                have := List.any_eq_false.mp hn2 x hx
                simpa using this
              have hsed : ∀ x ∈ l, x.sedA = a.sedA := by
                intro x hx
                have := hkeys x hx
                simpa [sKey, hb] using this
              intro x hx y hy
              refine ⟨?_, by rw [hnorm x hx, hnorm y hy]⟩
              rcases List.mem_cons.mp hx with rfl | hx2 <;>
                rcases List.mem_cons.mp hy with rfl | hy2
              · rfl
              · rw [hsed y hy2]
              · rw [hsed x hx2]
              · rw [hsed x hx2, hsed y hy2]
            · have hb' : ((a :: l).any fun x => x.sedA.isSome) = false := by
                cases hv : (a :: l).any fun x => x.sedA.isSome
                · rfl
                · exact absurd hv hb
              have hsed : ∀ x ∈ a :: l, x.sedA = none := by
                intro x hx
                have := List.any_eq_false.mp hb' x hx
                simpa using this
              have hnrm : ∀ x ∈ l, x.normA = a.normA := by
                intro x hx
                have := hkeys x hx
                simpa [sKey, hb'] using this
              intro x hx y hy
              refine ⟨by rw [hsed x hx, hsed y hy], ?_⟩
              rcases List.mem_cons.mp hx with rfl | hx2 <;>
                rcases List.mem_cons.mp hy with rfl | hy2
              · rfl
              · rw [hnrm y hy2]
              · rw [hnrm x hx2]
              · rw [hnrm x hx2, hnrm y hy2]
          have hns : n.sep = true := by
            repeat' split at h
            all_goals first
              | (simp only [Except.ok.injEq] at h; subst h; rfl)
              | simp at h
          exact iff_of_true hns ⟨hall, hpair⟩
        · rw [if_neg hc] at h
          have hns : n.sep = false := by
            repeat' split at h
            all_goals first
              | (simp only [Except.ok.injEq] at h; subst h; rfl)
              | simp at h
          have hnp : ¬ ((∀ x ∈ a :: l, x.sep = true) ∧
              ∀ x ∈ a :: l, ∀ y ∈ a :: l, x.sedA = y.sedA ∧ x.normA = y.normA) := by
            rintro ⟨h1, h2⟩
            apply hc
            have hfn : ((a :: l).filter fun x => !x.sep) = [] := by
              apply List.filter_eq_nil_iff.mpr
              intro x hx
              simp [h1 x hx]
            have hsel : ((a :: l).filter fun x => x.sep) = a :: l :=
              List.filter_eq_self.mpr h1
            rw [hfn, hsel, dfold_cons_nil]
            have hlen : (dfold ((a :: l).any fun x => x.sedA.isSome) l
                [(sKey ((a :: l).any fun x => x.sedA.isSome) a, [a])]).length = 1 := by
              apply (dfold_len1 _ l _ [a]).mpr
              intro x hx
              have hp := h2 x (List.mem_cons_of_mem a hx) a (List.mem_cons_self a l)
              cases hb : (a :: l).any fun x => x.sedA.isSome <;>
                simp [sKey, hp.1, hp.2]
            simp only [List.isEmpty_nil, Bool.true_and, beq_iff_eq]
            exact hlen
          exact iff_of_false (by simp [hns]) hnp

/-- The mixing check of ChromaticSum.__init__: a successful Sum never
combines SED-carrying with norm-carrying summands. -/
theorem mkSum_no_mix {Img : Type} {C : Ctx Img} {args : List (Node Img)} {n : Node Img}
    (h : mkSum C args = .ok n) :
    ((args.any fun x => x.sedA.isSome) && (args.any fun x => x.normA.isSome)) = false := by
  match args with
  | [] => simp [mkSum, mkSumF] at h
  | a :: l =>
      unfold mkSum mkSumF at h
      simp only [bind, Except.bind] at h
      by_cases hmix : (((a :: l).any fun x => x.sedA.isSome) &&
          ((a :: l).any fun x => x.normA.isSome)) = true
      · rw [if_pos hmix] at h
        simp at h
      · simpa using hmix

/-- C2: a successfully constructed ChromaticSum is classified separable
exactly when every summand is separable and all summands carry the same
SED object (or the same norm); in particular a Sum of two separable
SED-carrying summands whose SED attributes are the identical object is
separable, while the same Sum built from two distinct SED objects is
never separable, whatever numerical values the two SEDs take. -/
theorem sum_separable_iff {Img : Type} (C : Ctx Img) :
    (∀ (args : List (Node Img)) (n : Node Img), mkSum C args = .ok n →
      (n.sep = true ↔ (∀ x ∈ args, x.sep = true) ∧
        ∀ x ∈ args, ∀ y ∈ args, x.sedA = y.sedA ∧ x.normA = y.normA)) ∧
    (∀ (x y n : Node Img), x.sep = true → y.sep = true →
      x.sedA.isSome = true → x.sedA = y.sedA → mkSum C [x, y] = .ok n →
      n.sep = true) ∧
    (∀ (x y n : Node Img) (s t : SpecE), x.sep = true → y.sep = true →
      x.sedA = some s → y.sedA = some t → s ≠ t → mkSum C [x, y] = .ok n →
      n.sep = false) := by
  refine ⟨fun args n h => sum_sep_core h, ?_, ?_⟩
  · intro x y n hx hy hxs hxy h
    refine (sum_sep_core h).mpr ⟨?_, ?_⟩
    · intro z hz
      rcases List.mem_pair.mp hz with rfl | rfl
      · exact hx
      · exact hy
    · have hnm := mkSum_no_mix h
      have hbx : ([x, y].any fun z => z.sedA.isSome) = true := by simp [hxs]
      have hnf : ([x, y].any fun z => z.normA.isSome) = false := by
        cases hv : [x, y].any fun z => z.normA.isSome
        · rfl
        · rw [hbx, hv] at hnm
          simp at hnm
      have hnorm : ∀ z ∈ [x, y], z.normA = none := by
        intro z hz
        have := List.any_eq_false.mp hnf z hz
        simpa using this
      intro z hz w hw
      refine ⟨?_, by rw [hnorm z hz, hnorm w hw]⟩
      rcases List.mem_pair.mp hz with rfl | rfl <;>
        rcases List.mem_pair.mp hw with rfl | rfl
      · rfl
      · exact hxy
      · exact hxy.symm
      · rfl
  · intro x y n s t hx hy hxs hys hst h
    cases hsep : n.sep
    · rfl
    · exfalso
      have hp := ((sum_sep_core h).mp hsep).2 x (by simp) y (by simp)
      apply hst
      have h2 := hp.1
      rw [hxs, hys] at h2
      exact Option.some.inj h2

/-- Witness for C2: summing a separable SED leaf with itself gives a
separable Sum; summing it with a leaf built from a different SED object
gives an inseparable Sum. -/
theorem sum_separable_iff_witness :
    (∃ n1 : Node ℚ,
        mkSum wCtx [mkChromatic wCtx (.base 0) (.sedBase 0),
          mkChromatic wCtx (.base 0) (.sedBase 0)] = .ok n1 ∧ n1.sep = true) ∧
      ∃ n2 : Node ℚ,
        mkSum wCtx [mkChromatic wCtx (.base 0) (.sedBase 0),
          mkChromatic wCtx (.base 0) (.sedBase 1)] = .ok n2 ∧ n2.sep = false := by
  constructor
  · cases hmk : mkSum wCtx [mkChromatic wCtx (.base 0) (.sedBase 0),
        mkChromatic wCtx (.base 0) (.sedBase 0)] with
    | error e =>
        exfalso
        revert hmk
        norm_num [mkSum, mkSumF, pstep, dictApp, mkChromatic, Node.sedA, Node.normA,
          Node.sep, Node.attr, bind, Except.bind]
        intro hko
        exact Except.noConfusion hko
    | ok n1 =>
        exact ⟨n1, rfl,
          (sum_separable_iff wCtx).2.1 _ _ n1 (by rfl) (by rfl) (by rfl) rfl hmk⟩
  · cases hmk : mkSum wCtx [mkChromatic wCtx (.base 0) (.sedBase 0),
        mkChromatic wCtx (.base 0) (.sedBase 1)] with
    | error e =>
        exfalso
        revert hmk
        norm_num [mkSum, mkSumF, pstep, dictApp, mkChromatic, Node.sedA, Node.normA,
          Node.sep, Node.attr, bind, Except.bind]
        intro hko
        exact Except.noConfusion hko
    | ok n2 =>
        exact ⟨n2, rfl,
          (sum_separable_iff wCtx).2.2 _ _ n2
            ((SpecE.sedBase 0).sedScale (GSExpr.fluxE wCtx (.base 0)))
            ((SpecE.sedBase 1).sedScale (GSExpr.fluxE wCtx (.base 0)))
            (by rfl) (by rfl) (by rfl) (by rfl) (by simp) hmk⟩

/-- The objlist of a two-summand ChromaticSum holds exactly the two
summands: in the original order, except that an inseparable second
summand is listed before a separable first one. -/
theorem mkSum_pair {Img : Type} {C : Ctx Img} {A B n : Node Img}
    (h : mkSum C [A, B] = .ok n) :
    ∃ a : NAttr, n = .sum a [A, B] ∨ n = .sum a [B, A] := by
  unfold mkSum mkSumF at h
  simp only [bind, Except.bind] at h
  by_cases hA : A.sep = true
  · by_cases hB : B.sep = true
    · simp [pstep, hA, hB, dictApp, List.mapM, List.mapM.loop,
        bind, Except.bind, pure, Except.pure] at h
      by_cases hk : (if A.sedA.isSome = true ∨ B.sedA.isSome = true
            then A.sedA else A.normA) =
          (if A.sedA.isSome = true ∨ B.sedA.isSome = true then B.sedA else B.normA)
      · simp [hk] at h
        repeat' split at h
        all_goals first
          | exact ⟨_, Or.inl h.symm⟩
          | exact ⟨_, Or.inr h.symm⟩
          | (simp only [Except.ok.injEq] at h
             first
               | exact ⟨_, Or.inl h.symm⟩
               | exact ⟨_, Or.inr h.symm⟩)
          | simp at h
      · simp [hk, List.mapM, List.mapM.loop, bind, Except.bind, pure, Except.pure] at h
        repeat' split at h
        all_goals first
          | exact ⟨_, Or.inl h.symm⟩
          | exact ⟨_, Or.inr h.symm⟩
          | (simp only [Except.ok.injEq] at h
             first
               | exact ⟨_, Or.inl h.symm⟩
               | exact ⟨_, Or.inr h.symm⟩)
          | simp at h
    · have hB2 : B.sep = false := by simpa using hB
      simp [pstep, hA, hB2, dictApp, List.mapM, List.mapM.loop,
        bind, Except.bind, pure, Except.pure] at h
      repeat' split at h
      all_goals first
        | exact ⟨_, Or.inl h.symm⟩
        | exact ⟨_, Or.inr h.symm⟩
        | (simp only [Except.ok.injEq] at h
           first
             | exact ⟨_, Or.inl h.symm⟩
             | exact ⟨_, Or.inr h.symm⟩)
        | simp at h
  · have hA2 : A.sep = false := by simpa using hA
    by_cases hB : B.sep = true
    · simp [pstep, hA2, hB, dictApp, List.mapM, List.mapM.loop,
        bind, Except.bind, pure, Except.pure] at h
      repeat' split at h
      all_goals first
        | exact ⟨_, Or.inl h.symm⟩
        | exact ⟨_, Or.inr h.symm⟩
        | (simp only [Except.ok.injEq] at h
           first
             | exact ⟨_, Or.inl h.symm⟩
             | exact ⟨_, Or.inr h.symm⟩)
        | simp at h
    · have hB2 : B.sep = false := by simpa using hB
      simp [pstep, hA2, hB2, dictApp, List.mapM, List.mapM.loop,
        bind, Except.bind, pure, Except.pure] at h
      repeat' split at h
      all_goals first
        | exact ⟨_, Or.inl h.symm⟩
        | exact ⟨_, Or.inr h.symm⟩
        | (simp only [Except.ok.injEq] at h
           first
             | exact ⟨_, Or.inl h.symm⟩
             | exact ⟨_, Or.inr h.symm⟩)
        | simp at h

/-- C7: evaluateAtWavelength commutes with addition: the evaluation of
the Sum of two chromatic objects at a wavelength where both evaluate is
the monochromatic Add of their two evaluations — under every semantics
of profiles that interprets an Add node as the commutative and
associative accumulation of its summands' interpretations. -/
theorem sum_evaluateAtWavelength {Img : Type} [AddCommMonoid Img] [Module ℚ Img]
    {C : Ctx Img} {M : Type} (S : GSExpr Img → M) (z : M) (addM : M → M → M)
    (hS : ∀ l : List (GSExpr Img), S (.addL l) = (l.map S).foldr addM z)
    (hcomm : ∀ x y, addM x y = addM y x)
    (hassoc : ∀ x y v, addM (addM x y) v = addM x (addM y v))
    {A B n : Node Img} (hmk : mkSum C [A, B] = .ok n)
    {w : ℚ} {gA gB : GSExpr Img}
    (hA : A.evalAt C w = .ok gA) (hB : B.evalAt C w = .ok gB) :
    ∃ g, n.evalAt C w = .ok g ∧ S g = S (.addL [gA, gB]) := by
  obtain ⟨a, hn | hn⟩ := mkSum_pair hmk
  · subst hn
    refine ⟨.addL [gA, gB], ?_, rfl⟩
    rw [Node.evalAt]
    rw [evalList, hA]
    simp only [Except.bind, bind]
    rw [evalList, hB]
    simp [evalList, Except.bind, bind, pure, Except.pure]
  · subst hn
    refine ⟨.addL [gB, gA], ?_, ?_⟩
    · rw [Node.evalAt]
      rw [evalList, hB]
      simp only [Except.bind, bind]
      rw [evalList, hA]
      simp [evalList, Except.bind, bind, pure, Except.pure]
    · rw [hS, hS]
      simp only [List.map_cons, List.map_nil, List.foldr_cons, List.foldr_nil]
      rw [← hassoc, hcomm (S gB) (S gA), hassoc]

/-- Witness for C7: two SED leaves on distinct SEDs, summed and
evaluated at wavelength 1 under the flux semantics. -/
theorem sum_evaluateAtWavelength_witness :
    ∃ n : Node ℚ,
      mkSum wCtx [mkChromatic wCtx (.base 0) (.sedBase 0),
          mkChromatic wCtx (.base 1) (.sedBase 1)] = .ok n ∧
        ∃ gA gB : GSExpr ℚ,
          (mkChromatic wCtx (.base 0) (.sedBase 0)).evalAt wCtx 1 = .ok gA ∧
            (mkChromatic wCtx (.base 1) (.sedBase 1)).evalAt wCtx 1 = .ok gB ∧
              ∃ g, n.evalAt wCtx 1 = .ok g ∧ qflux g = qflux (.addL [gA, gB]) := by
  have hq : ∀ l : List (GSExpr ℚ), qflux (.addL l) = (l.map qflux).foldr (· + ·) 0 := by
    intro l
    induction l with
    | nil => simp [qflux, qfluxSum]
    | cons g t ih =>
        simp only [qflux] at ih ⊢
        simp [qfluxSum, ih]
  cases hmk : mkSum wCtx [mkChromatic wCtx (.base 0) (.sedBase 0),
      mkChromatic wCtx (.base 1) (.sedBase 1)] with
  | error e =>
      exfalso
      revert hmk
      norm_num [mkSum, mkSumF, pstep, dictApp, mkChromatic, Node.sedA, Node.normA,
        Node.sep, Node.attr, bind, Except.bind]
      intro hko
      exact Except.noConfusion hko
  | ok n =>
      cases hA : (mkChromatic wCtx (.base 0) (.sedBase 0)).evalAt wCtx 1 with
      | error e =>
          exfalso
          revert hA
          simp [mkChromatic, Node.evalAt]
      | ok gA =>
          cases hB : (mkChromatic wCtx (.base 1) (.sedBase 1)).evalAt wCtx 1 with
          | error e =>
              exfalso
              revert hB
              simp [mkChromatic, Node.evalAt]
          | ok gB =>
              obtain ⟨g, hg, hgs⟩ := sum_evaluateAtWavelength qflux 0 (· + ·) hq
                (fun x y => add_comm x y) (fun x y v => add_assoc x y v) hmk hA hB
              exact ⟨n, rfl, gA, gB, rfl, rfl, g, hg, hgs⟩

theorem foldl_min_of_le (x : ℚ) : ∀ (xs : List ℚ), (∀ y ∈ xs, x ≤ y) → xs.foldl min x = x
  | [], _ => rfl
  | y :: ys, h => by
      have hx : min x y = x := min_eq_left (h y (by simp))
      simp only [List.foldl_cons, hx]
      exact foldl_min_of_le x ys (fun z hz => h z (by simp [hz]))

/-- On a strictly sorted nonempty grid np.min is the first entry. -/
theorem minQ_sorted (l : List ℚ) (h : List.Pairwise (· < ·) l) (hne : l ≠ []) :
    minQ l = l.getD 0 0 := by
  cases l with
  | nil => cases hne rfl
  | cons x xs =>
      simp only [minQ, List.getD_cons_zero]
      exact foldl_min_of_le x xs
        (fun y hy => le_of_lt ((List.pairwise_cons.mp h).1 y hy))

/-- On a strictly sorted nonempty grid np.max is the last entry. -/
theorem maxQ_sorted : ∀ (l : List ℚ), List.Pairwise (· < ·) l → l ≠ [] →
    maxQ l = l.getD (l.length - 1) 0
  | [], _, hne => absurd rfl hne
  | [x], _, _ => by simp [maxQ]
  | x :: y :: ys, h, _ => by
      have h1 : max x y = y :=
        max_eq_right (le_of_lt ((List.pairwise_cons.mp h).1 y (by simp)))
      have h2 := maxQ_sorted (y :: ys) (List.pairwise_cons.mp h).2 (by simp)
      have h3 : maxQ (x :: y :: ys) = maxQ (y :: ys) := by
        simp [maxQ, h1]
      rw [h3, h2]
      simp [List.getD_cons_succ]

/-- np.searchsorted at the first entry of a strictly sorted grid is 0. -/
theorem searchsorted_min (l : List ℚ) (h : List.Pairwise (· < ·) l) :
    searchsorted l (l.getD 0 0) = 0 := by
  cases l with
  | nil => rfl
  | cons x xs =>
      have hnil : ((x :: xs).filter (fun y => decide (y < x))) = [] := by
        apply List.filter_eq_nil_iff.mpr
        intro a ha
        rcases List.mem_cons.mp ha with rfl | ha2
        · simp
        · simp only [decide_eq_true_eq, not_lt]
          exact le_of_lt ((List.pairwise_cons.mp h).1 a ha2)
      simp [searchsorted, List.getD_cons_zero, hnil]

/-- np.searchsorted at the last entry of a strictly sorted grid is the
last index. -/
theorem searchsorted_max : ∀ (l : List ℚ), List.Pairwise (· < ·) l → l ≠ [] →
    searchsorted l (l.getD (l.length - 1) 0) = l.length - 1
  | [], _, hne => absurd rfl hne
  | [x], _, _ => by simp [searchsorted]
  | x :: y :: ys, h, _ => by
      obtain ⟨hx, h2⟩ := List.pairwise_cons.mp h
      have ih := searchsorted_max (y :: ys) h2 (by simp)
      have hmem : (y :: ys).getD ((y :: ys).length - 1) 0 ∈ y :: ys := by
        have hlt : (y :: ys).length - 1 < (y :: ys).length := by
          simp
        rw [List.getD_eq_getElem?_getD, List.getElem?_eq_getElem hlt, Option.getD_some]
        exact List.getElem_mem hlt
      have hxlt : x < (y :: ys).getD ((y :: ys).length - 1) 0 := hx _ hmem
      have hcast : (x :: y :: ys).getD ((x :: y :: ys).length - 1) 0 =
          (y :: ys).getD ((y :: ys).length - 1) 0 := by
        simp [List.getD_cons_succ]
      rw [hcast]
      simp only [searchsorted, List.filter_cons] at ih ⊢
      rw [if_pos (by simpa using hxlt), List.length_cons, ih]
      simp only [List.length_cons]
      omega

/-- Entries of a strictly sorted grid increase with the index. -/
theorem getD_lt_getD_of_pairwise (l : List ℚ) (h : List.Pairwise (· < ·) l)
    {i j : ℕ} (hij : i < j) (hj : j < l.length) :
    l.getD i 0 < l.getD j 0 := by
  have hi : i < l.length := lt_trans hij hj
  rw [List.getD_eq_getElem?_getD, List.getElem?_eq_getElem hi, Option.getD_some,
    List.getD_eq_getElem?_getD, List.getElem?_eq_getElem hj, Option.getD_some]
  exact List.pairwise_iff_get.mp h ⟨i, hi⟩ ⟨j, hj⟩ hij

/-- C10: on a strictly sorted wavelength grid with at least two points,
evaluateAtWavelength of an interpolated object succeeds at wavelengths
exactly equal to the grid minimum and the grid maximum: the range check
uses strict inequalities, the bracketing search clamps the lower index to
0 at the minimum and to length - 2 at the maximum so both interpolation
indices stay inside the stored arrays, the interpolation fraction is 0 at
the minimum and 1 at the maximum, and the interpolated image is the first
stored image at the minimum and the last stored image at the maximum. -/
theorem interp_eval_at_grid_ends {Img : Type} [AddCommMonoid Img] [Module ℚ Img]
    (C : Ctx Img) (a : NAttr) (orig : Node Img) (ov : ℚ)
    (waves : List ℚ) (ims : List Img) (stepKs maxKs : List ℚ)
    (hsort : List.Pairwise (· < ·) waves) (hlen : 2 ≤ waves.length) :
    (findWave waves (minQ waves) = (0, 0) ∧
      Node.evalAt C (.interpN a orig waves ims stepKs maxKs ov) (minQ waves) =
        .ok (.interpImage (ims.getD 0 0) (some (stepKs.getD 0 0, maxKs.getD 0 0)))) ∧
      findWave waves (maxQ waves) = (waves.length - 2, 1) ∧
        Node.evalAt C (.interpN a orig waves ims stepKs maxKs ov) (maxQ waves) =
          .ok (.interpImage (ims.getD (waves.length - 1) 0)
            (some (stepKs.getD (waves.length - 1) 0, maxKs.getD (waves.length - 1) 0))) := by
  have hne : waves ≠ [] := by
    intro hcon
    rw [hcon] at hlen
    simp at hlen
  have hmin : minQ waves = waves.getD 0 0 := minQ_sorted waves hsort hne
  have hmax : maxQ waves = waves.getD (waves.length - 1) 0 := maxQ_sorted waves hsort hne
  have hminmax : minQ waves < maxQ waves := by
    rw [hmin, hmax]
    exact getD_lt_getD_of_pairwise waves hsort (by omega) (by omega)
  have hempty : waves.isEmpty = false := by
    cases waves with
    | nil => cases hne rfl
    | cons x xs => rfl
  have hfmin : findWave waves (minQ waves) = (0, 0) := by
    rw [hmin]
    simp only [findWave, searchsorted_min waves hsort]
    simp only [if_true]
    rw [sub_self, zero_div]
  have hfmax : findWave waves (maxQ waves) = (waves.length - 2, 1) := by
    rw [hmax]
    simp only [findWave, searchsorted_max waves hsort hne]
    have hli : (if waves.length - 1 = 0 then 0
        else min (waves.length - 1 - 1) (waves.length - 1)) = waves.length - 2 := by
      rw [if_neg (by omega)]
      omega
    rw [hli]
    have h2 : waves.length - 2 + 1 = waves.length - 1 := by omega
    rw [h2]
    have hlt : waves.getD (waves.length - 2) 0 < waves.getD (waves.length - 1) 0 :=
      getD_lt_getD_of_pairwise waves hsort (by omega) (by omega)
    rw [div_self (by exact sub_ne_zero.mpr (ne_of_gt hlt))]
  have hmm : ∀ w : ℚ, ¬(w < minQ waves ∨ w > maxQ waves) →
      Node.evalAt C (.interpN a orig waves ims stepKs maxKs ov) w =
        .ok (.interpImage (linInterp ims (findWave waves w).2 (findWave waves w).1)
          (some (linInterp stepKs (findWave waves w).2 (findWave waves w).1,
            linInterp maxKs (findWave waves w).2 (findWave waves w).1))) := by
    intro w hw
    rw [Node.evalAt]
    unfold imageAtWavelength
    rw [if_neg (by simp [hempty]), if_neg hw]
  refine ⟨⟨hfmin, ?_⟩, hfmax, ?_⟩
  · rw [hmm (minQ waves) (by push_neg; exact ⟨le_refl _, le_of_lt hminmax⟩)]
    rw [hfmin]
    simp [linInterp]
  · rw [hmm (maxQ waves) (by push_neg; exact ⟨le_of_lt hminmax, le_refl _⟩)]
    rw [hfmax]
    have h2 : waves.length - 2 + 1 = waves.length - 1 := by omega
    simp [linInterp, h2]

/-- Witness for C10: the grid with wavelengths 0 and 2 and stored data
10, 20 (images), 1, 2 (stepk), 3, 4 (maxk). -/
theorem interp_eval_at_grid_ends_witness :
    List.Pairwise (· < ·) ([0, 2] : List ℚ) ∧ 2 ≤ ([0, 2] : List ℚ).length ∧
      Node.evalAt wCtx (.interpN ⟨true, true, none, some (.c 1), [0, 2]⟩ (mkCleaf 0)
          [0, 2] [(10 : ℚ), 20] [1, 2] [3, 4] 4) (minQ [0, 2]) =
        .ok (.interpImage 10 (some (1, 3))) ∧
      Node.evalAt wCtx (.interpN ⟨true, true, none, some (.c 1), [0, 2]⟩ (mkCleaf 0)
          [0, 2] [(10 : ℚ), 20] [1, 2] [3, 4] 4) (maxQ [0, 2]) =
        .ok (.interpImage 20 (some (2, 4))) := by
  have hs : List.Pairwise (· < ·) ([0, 2] : List ℚ) := by norm_num
  have hl : 2 ≤ ([0, 2] : List ℚ).length := by norm_num
  have h := interp_eval_at_grid_ends wCtx ⟨true, true, none, some (.c 1), [0, 2]⟩
    (mkCleaf 0) 4 [0, 2] [(10 : ℚ), 20] [1, 2] [3, 4] hs hl
  refine ⟨hs, hl, ?_, ?_⟩
  · rw [h.1.2]
    norm_num [List.getD]
  · rw [h.2.2]
    norm_num [List.getD]

/-- C8: an interpolated object never extrapolates: evaluateAtWavelength
fails with OutOfRange at every wavelength strictly outside the stored
grid — in particular one unit beyond the grid maximum — and drawImage
over a bandpass whose combined wavelength list reaches below the grid
minimum or above the grid maximum fails with OutOfRange as well, so no
extrapolated image is ever produced. -/
theorem interp_no_extrapolation {Img : Type} [AddCommMonoid Img] [Module ℚ Img]
    (C : Ctx Img) (a : NAttr) (orig : Node Img) (ov : ℚ)
    (waves : List ℚ) (ims : List Img) (stepKs maxKs : List ℚ) :
    (∀ w : ℚ, waves ≠ [] → (w < minQ waves ∨ w > maxQ waves) →
      Node.evalAt C (.interpN a orig waves ims stepKs maxKs ov) w =
        .error .outOfRange) ∧
      (waves ≠ [] →
        Node.evalAt C (.interpN a orig waves ims stepKs maxKs ov) (maxQ waves + 1) =
          .error .outOfRange) ∧
      ∀ (bp : Bandpass) (imgOpt : Option Img) (add mp : Bool) (s : SpecE)
          (fid : ℚ × GSExpr Img),
        a.sed = some s →
        fiducial C (.interpN a orig waves ims stepKs maxKs ov) bp = .ok fid →
        combineWL (.interpN a orig waves ims stepKs maxKs ov) bp ≠ [] →
        (minQ (combineWL (.interpN a orig waves ims stepKs maxKs ov) bp) < minQ waves ∨
          maxQ (combineWL (.interpN a orig waves ims stepKs maxKs ov) bp) > maxQ waves) →
        draw C (.interpN a orig waves ims stepKs maxKs ov) bp imgOpt add mp =
          .error .outOfRange := by
  have hev : ∀ w : ℚ, waves ≠ [] → (w < minQ waves ∨ w > maxQ waves) →
      Node.evalAt C (.interpN a orig waves ims stepKs maxKs ov) w =
        .error .outOfRange := by
    intro w hne hout
    have hempty : waves.isEmpty = false := by
      cases waves with
      | nil => cases hne rfl
      | cons x xs => rfl
    rw [Node.evalAt]
    unfold imageAtWavelength
    rw [if_neg (by simp [hempty]), if_pos hout]
  refine ⟨hev, fun hne => hev _ hne (Or.inr (lt_add_one _)), ?_⟩
  intro bp imgOpt add mp s fid hsed hfid hwl hrange
  obtain ⟨k, hk⟩ : ∃ k, (Node.interpN a orig waves ims stepKs maxKs ov : Node Img).sz
      = k + 1 :=
    ⟨(Node.interpN a orig waves ims stepKs maxKs ov : Node Img).sz - 1,
      by have := Node.sz_pos (Node.interpN a orig waves ims stepKs maxKs ov
        : Node Img); omega⟩
  rw [draw, hk, drawF]
  have hget : interpGet C (.interpN a orig waves ims stepKs maxKs ov) bp imgOpt mp =
      .error .outOfRange := by
    unfold interpGet
    rw [hfid]
    simp only [bind, Except.bind]
    cases hcw : combineWL (Node.interpN a orig waves ims stepKs maxKs ov : Node Img) bp with
    | nil => cases hwl hcw
    | cons w ws =>
        rw [hcw] at hrange
        cases hrange with
        | inl h1 =>
            simp only [if_pos h1]
        | inr h2 =>
            by_cases h1 : minQ (w :: ws) < minQ waves
            · simp only [if_pos h1]
            · simp only [if_neg h1, if_pos h2]
  simp only [interpDraw, Node.sedA, Node.attr, hsed, bind, Except.bind, hget]

/-- Witness for C8: a grid over wavelengths 0 to 2, queried at 3 (one
unit beyond the maximum) and drawn over a bandpass with a knot at 5. -/
theorem interp_no_extrapolation_witness :
    (([0, 2] : List ℚ) ≠ [] ∧
      Node.evalAt wCtx (.interpN ⟨true, true, some (.sedBase 0), none, [0, 2]⟩ (mkCleaf 0)
          [0, 2] [(10 : ℚ), 20] [1, 2] [3, 4] 4) (maxQ [0, 2] + 1) =
        .error .outOfRange) ∧
      ∃ fid : ℚ × GSExpr ℚ,
        fiducial wCtx (.interpN ⟨true, true, some (.sedBase 0), none, [0, 2]⟩ (mkCleaf 0)
            [0, 2] [(10 : ℚ), 20] [1, 2] [3, 4] 4) ⟨0, fun _ => 1, 0, 5, 1, [5]⟩ =
          .ok fid ∧
          draw wCtx (.interpN ⟨true, true, some (.sedBase 0), none, [0, 2]⟩ (mkCleaf 0)
              [0, 2] [(10 : ℚ), 20] [1, 2] [3, 4] 4) ⟨0, fun _ => 1, 0, 5, 1, [5]⟩
              none false false =
            .error .outOfRange := by
  have hne : (([0, 2] : List ℚ)) ≠ [] := by simp
  have h := interp_no_extrapolation wCtx ⟨true, true, some (.sedBase 0), none, [0, 2]⟩
    (mkCleaf 0) 4 [0, 2] [(10 : ℚ), 20] [1, 2] [3, 4]
  refine ⟨⟨hne, h.2.1 hne⟩, ?_⟩
  cases hfid : fiducial wCtx (.interpN ⟨true, true, some (.sedBase 0), none, [0, 2]⟩
      (mkCleaf 0) [0, 2] [(10 : ℚ), 20] [1, 2] [3, 4] 4) ⟨0, fun _ => 1, 0, 5, 1, [5]⟩ with
  | error e =>
      exfalso
      revert hfid
      norm_num [fiducial, Node.evalAt, imageAtWavelength, findWave, searchsorted, minQ,
        maxQ, linInterp, GSExpr.fluxE, bind, Except.bind, List.getD, smul_eq_mul, wCtx]
      intro hko
      exact Except.noConfusion hko
  | ok fid =>
      refine ⟨fid, rfl, ?_⟩
      apply h.2.2 ⟨0, fun _ => 1, 0, 5, 1, [5]⟩ none false false (.sedBase 0) fid rfl hfid
      · intro hcon
        norm_num [combineWL, Node.wlA, Node.attr, unionQ, insRq] at hcon
        exact List.cons_ne_nil _ _ hcon
      · right
        norm_num [combineWL, Node.wlA, Node.attr, unionQ, insRq, maxQ]

/-- The weight one sample of the combined wavelength list contributes to
one stored image.  Modelled from the spec: the sample's quadrature weight
bandpass(w) * dw is split linearly between the two bracketing stored
images, and is halved at the first and last samples under the trapezoidal
rule (midpoint keeps the full weight everywhere). -/
def specSampleWeight (waves : List ℚ) (wlLen : ℕ) (midpt : Bool) (bpf : ℚ → ℚ)
    (dw : List ℚ) (i : ℕ) (w : ℚ) (j : ℕ) : ℚ :=
  let lf := findWave waves w
  let b := bpf w * dw.getD i 0
  if (0 < i ∧ i < wlLen - 1) ∨ midpt then
    (if j = lf.1 then (1 - lf.2) * b else 0) + (if j = lf.1 + 1 then lf.2 * b else 0)
  else
    (if j = lf.1 then (1 - lf.2) * b / 2 else 0) +
      (if j = lf.1 + 1 then lf.2 * b / 2 else 0)

/-- The stored values at nonzero accumulated weight.  Modelled from the
spec: the frequency bounds combine the stored bounds of the samples with
nonzero integration weight. -/
def nonzeroSel (vals wf : List ℚ) : List ℚ :=
  ((vals.zip wf).filter (fun p => decide (p.2 ≠ 0))).map (·.1)

theorem updAdd_length (l : List ℚ) (i : ℕ) (q : ℚ) : (updAdd l i q).length = l.length := by
  simp [updAdd]

theorem updAdd_getD (l : List ℚ) (i : ℕ) (q : ℚ) (j : ℕ) (hj : j < l.length) :
    (updAdd l i q).getD j 0 = l.getD j 0 + (if j = i then q else 0) := by
  have hg : l.getD j 0 = l[j] := by
    rw [List.getD_eq_getElem?_getD, List.getElem?_eq_getElem hj, Option.getD_some]
  by_cases hi : i < l.length
  · have hj2 : j < (l.set i (l.getD i 0 + q)).length := by
      simpa using hj
    have hg2 : (l.set i (l.getD i 0 + q)).getD j 0 = (l.set i (l.getD i 0 + q))[j] := by
      rw [List.getD_eq_getElem?_getD, List.getElem?_eq_getElem hj2, Option.getD_some]
    rw [updAdd, hg2, List.getElem_set, hg]
    by_cases hij : i = j
    · subst hij
      rw [if_pos rfl, if_pos rfl, hg]
    · rw [if_neg hij, if_neg (fun hcon => hij hcon.symm), add_zero]
  · rw [updAdd, List.set_eq_of_length_le (by omega)]
    have hne : ¬(j = i) := by omega
    rw [if_neg hne, add_zero]

theorem interpWeights_fold (waves : List ℚ) (wlLen : ℕ) (midpt : Bool) (bpf : ℚ → ℚ)
    (dw : List ℚ) (j : ℕ) :
    ∀ (es : List (ℕ × ℚ)) (acc : List ℚ), j < acc.length →
      (es.foldl
        (fun wf iw =>
          let lf := findWave waves iw.2
          let b := bpf iw.2 * dw.getD iw.1 0
          if (0 < iw.1 ∧ iw.1 < wlLen - 1) ∨ midpt then
            updAdd (updAdd wf lf.1 ((1 - lf.2) * b)) (lf.1 + 1) (lf.2 * b)
          else
            updAdd (updAdd wf lf.1 ((1 - lf.2) * b / 2)) (lf.1 + 1) (lf.2 * b / 2)) acc).getD
          j 0 =
        acc.getD j 0 +
          (es.map (fun iw => specSampleWeight waves wlLen midpt bpf dw iw.1 iw.2 j)).sum
  | [], acc, _ => by simp
  | iw :: es, acc, hj => by
      rw [List.foldl_cons, List.map_cons, List.sum_cons]
      by_cases hc : (0 < iw.1 ∧ iw.1 < wlLen - 1) ∨ midpt = true
      · rw [if_pos hc]
        have hlen : j < (updAdd (updAdd acc (findWave waves iw.2).1
            ((1 - (findWave waves iw.2).2) * (bpf iw.2 * dw.getD iw.1 0)))
            ((findWave waves iw.2).1 + 1)
            ((findWave waves iw.2).2 * (bpf iw.2 * dw.getD iw.1 0))).length := by
          rw [updAdd_length, updAdd_length]
          exact hj
        rw [interpWeights_fold waves wlLen midpt bpf dw j es _ hlen]
        rw [updAdd_getD _ _ _ _ (by rw [updAdd_length]; exact hj),
          updAdd_getD _ _ _ _ hj]
        rw [specSampleWeight, if_pos hc]
        ring
      · rw [if_neg hc]
        have hlen : j < (updAdd (updAdd acc (findWave waves iw.2).1
            ((1 - (findWave waves iw.2).2) * (bpf iw.2 * dw.getD iw.1 0) / 2))
            ((findWave waves iw.2).1 + 1)
            ((findWave waves iw.2).2 * (bpf iw.2 * dw.getD iw.1 0) / 2)).length := by
          rw [updAdd_length, updAdd_length]
          exact hj
        rw [interpWeights_fold waves wlLen midpt bpf dw j es _ hlen]
        rw [updAdd_getD _ _ _ _ (by rw [updAdd_length]; exact hj),
          updAdd_getD _ _ _ _ hj]
        rw [specSampleWeight, if_neg hc]
        ring

/-- The accumulated weight of one stored image is the sum of the sample
contributions. -/
theorem interpWeights_getD (waves wl dw : List ℚ) (midpt : Bool) (bpf : ℚ → ℚ) (j : ℕ)
    (hj : j < waves.length) :
    (interpWeights waves wl dw midpt bpf).getD j 0 =
      (wl.enum.map
        (fun iw => specSampleWeight waves wl.length midpt bpf dw iw.1 iw.2 j)).sum := by
  rw [interpWeights, interpWeights_fold waves wl.length midpt bpf dw j wl.enum
    (List.replicate waves.length 0) (by simpa using hj)]
  rw [List.getD_eq_getElem?_getD, List.getElem?_eq_getElem (by simpa using hj),
    Option.getD_some, List.getElem_replicate, zero_add]

/-- Under nonnegative weights the positive-weight selection of the source
is exactly the nonzero-weight selection. -/
theorem filteredVals_nonneg (vals wf : List ℚ) (h : ∀ x ∈ wf, 0 ≤ x) :
    filteredVals vals wf = nonzeroSel vals wf := by
  unfold filteredVals nonzeroSel
  congr 1
  apply List.filter_congr
  intro p hp
  have hw : p.2 ∈ wf := (List.of_mem_zip hp).2
  have h2 := h p.2 hw
  simp only [decide_eq_decide]
  constructor
  · intro hlt
    exact ne_of_gt hlt
  · intro hne
    exact lt_of_le_of_ne h2 (Ne.symm hne)

/-- C9: integrating an interpolated object over a bandpass assigns each
sample wavelength of the combined wavelength list the quadrature weight
bandpass(w) * dw, split linearly between the two bracketing stored
images, with the first and the last sample at half weight under the
trapezoidal rule and at full weight (like every interior sample) under
the midpoint rule; and the interpolated integral image carries the
minimum of the stored step-frequency bounds and the maximum of the
stored max-frequency bounds taken over exactly the stored images of
nonzero accumulated weight (nonnegative weights assumed, as the source
selects by strict positivity). -/
theorem interp_integration_weights {Img : Type} [AddCommMonoid Img] [Module ℚ Img]
    (C : Ctx Img) :
    (∀ (waves wl dw : List ℚ) (midpt : Bool) (bpf : ℚ → ℚ) (j : ℕ), j < waves.length →
      (interpWeights waves wl dw midpt bpf).getD j 0 =
        (wl.enum.map
          (fun iw => specSampleWeight waves wl.length midpt bpf dw iw.1 iw.2 j)).sum) ∧
      ∀ (a : NAttr) (orig : Node Img) (ov : ℚ) (waves : List ℚ) (ims : List Img)
        (stepKs maxKs : List ℚ) (bp : Bandpass) (imgOpt : Option Img) (midpt : Bool)
        (wl wf : List ℚ) (im : Img) (k : ℚ × ℚ),
        combineWL (.interpN a orig waves ims stepKs maxKs ov) bp = wl →
        interpWeights waves wl (dwList wl) midpt bp.f = wf →
        (∀ x ∈ wf, 0 ≤ x) →
        interpGet C (.interpN a orig waves ims stepKs maxKs ov) bp imgOpt midpt =
          .ok (.interpImage im (some k)) →
        im = weightedSum wf ims ∧
          k = (minQ (nonzeroSel stepKs wf), maxQ (nonzeroSel maxKs wf)) := by
  refine ⟨fun waves wl dw midpt bpf j hj =>
    interpWeights_getD waves wl dw midpt bpf j hj, ?_⟩
  intro a orig ov waves ims stepKs maxKs bp imgOpt midpt wl wf im k hwl hwf hnn hok
  unfold interpGet at hok
  simp only [bind, Except.bind] at hok
  rw [hwl] at hok
  rw [hwf] at hok
  repeat' split at hok
  all_goals first
    | (simp only [Except.ok.injEq, GSExpr.interpImage.injEq, Option.some.injEq] at hok
       obtain ⟨him, hk⟩ := hok
       refine ⟨him.symm, ?_⟩
       rw [← hk, filteredVals_nonneg stepKs wf hnn, filteredVals_nonneg maxKs wf hnn])
    | simp at hok

set_option maxHeartbeats 2000000 in
/-- Witness for C9: the grid 0, 2 with a flat unit bandpass sampled at
0, 1, 2: both endpoint samples deposit half their weight, the interior
sample splits evenly between the two stored images, the accumulated
weights are 1 and 1, and the integral image takes the minimum stepk 1
and the maximum maxk 4 over both stored images. -/
theorem interp_integration_weights_witness :
    ((0 : ℕ) < ([0, 2] : List ℚ).length ∧
      (interpWeights [0, 2] [0, 1, 2] (dwList [0, 1, 2]) false (fun _ => 1)).getD 0 0 =
        (([0, 1, 2] : List ℚ).enum.map
          (fun iw => specSampleWeight [0, 2] ([0, 1, 2] : List ℚ).length false
            (fun _ => 1) (dwList [0, 1, 2]) iw.1 iw.2 0)).sum) ∧
      combineWL (.interpN ⟨true, true, some (.sedBase 0), none, [0, 2]⟩ (mkCleaf 0)
          [0, 2] [(10 : ℚ), 20] [1, 2] [3, 4] 4) ⟨0, fun _ => 1, 0, 2, 1, [1]⟩ =
        [0, 1, 2] ∧
      interpWeights [0, 2] [0, 1, 2] (dwList [0, 1, 2]) false
          (Bandpass.f ⟨0, fun _ => 1, 0, 2, 1, [1]⟩) = [1, 1] ∧
      (∀ x ∈ ([1, 1] : List ℚ), 0 ≤ x) ∧
      interpGet wCtx (.interpN ⟨true, true, some (.sedBase 0), none, [0, 2]⟩ (mkCleaf 0)
          [0, 2] [(10 : ℚ), 20] [1, 2] [3, 4] 4) ⟨0, fun _ => 1, 0, 2, 1, [1]⟩ none false =
        .ok (.interpImage 30 (some (1, 4))) ∧
      (30 : ℚ) = weightedSum [1, 1] [(10 : ℚ), 20] ∧
      ((1 : ℚ), (4 : ℚ)) =
        (minQ (nonzeroSel [1, 2] [1, 1]), maxQ (nonzeroSel [3, 4] [1, 1])) := by
  have hwl : combineWL (.interpN ⟨true, true, some (.sedBase 0), none, [0, 2]⟩ (mkCleaf 0)
      [0, 2] [(10 : ℚ), 20] [1, 2] [3, 4] 4) ⟨0, fun _ => 1, 0, 2, 1, [1]⟩ = [0, 1, 2] := by
    norm_num [combineWL, Node.wlA, Node.attr, unionQ, insRq]
  have hwf : interpWeights [0, 2] [0, 1, 2] (dwList [0, 1, 2]) false
      (Bandpass.f ⟨0, fun _ => 1, 0, 2, 1, [1]⟩) = [1, 1] := by
    norm_num [interpWeights, dwList, dwList.dwMid, findWave, searchsorted, updAdd,
      List.enum, List.enumFrom, List.getD, List.set, List.getElem_cons_succ,
      List.getElem_cons_zero]
    simp only [show ([1, 1, 1] : List ℚ)[1] = 1 from rfl]
    norm_num
  have hnn : ∀ x ∈ ([1, 1] : List ℚ), 0 ≤ x := by norm_num
  have hget : interpGet wCtx (.interpN ⟨true, true, some (.sedBase 0), none, [0, 2]⟩
      (mkCleaf 0) [0, 2] [(10 : ℚ), 20] [1, 2] [3, 4] 4) ⟨0, fun _ => 1, 0, 2, 1, [1]⟩
      none false = .ok (.interpImage 30 (some (1, 4))) := by
    norm_num [interpGet, fiducial, Node.evalAt, imageAtWavelength, findWave, searchsorted,
      minQ, maxQ, linInterp, GSExpr.fluxE, wCtx, combineWL, Node.wlA, Node.attr, unionQ,
      insRq, interpWeights, dwList, dwList.dwMid, updAdd, weightedSum, filteredVals,
      bind, Except.bind, List.getD, smul_eq_mul, List.enum, List.enumFrom, List.set,
      List.getElem_cons_succ, List.getElem_cons_zero]
    simp only [show ([1, 1, 1] : List ℚ)[1] = 1 from rfl]
    norm_num [List.filter, List.foldl, min_def, max_def]
  obtain ⟨him, hk⟩ := (interp_integration_weights wCtx).2
    ⟨true, true, some (.sedBase 0), none, [0, 2]⟩ (mkCleaf 0) 4 [0, 2]
    [(10 : ℚ), 20] [1, 2] [3, 4] ⟨0, fun _ => 1, 0, 2, 1, [1]⟩ none false
    [0, 1, 2] [1, 1] 30 (1, 4) hwl hwf hnn hget
  exact ⟨⟨by norm_num,
    (interp_integration_weights wCtx).1 [0, 2] [0, 1, 2] (dwList [0, 1, 2]) false
      (fun _ => 1) 0 (by norm_num)⟩, hwl, hwf, hnn, hget, him, hk⟩

/-- The node classes whose drawImage is the base ChromaticObject
implementation: every class except ChromaticSum (which draws its summands
one by one), InterpolatedChromaticObject (which integrates its stored
images), and a ChromaticTransformation wrapping an interpolated original
(which integrates the stored images and transforms the result). -/
def usesBase {Img : Type} : Node Img → Bool
  | .sum _ _ => false
  | .interpN _ _ _ _ _ _ _ => false
  | .transform _ (.interpN _ _ _ _ _ _ _) _ _ _ => false
  | _ => true

/-- Well-formedness of the multiplier cache for a bandpass: every entry
whose key carries this bandpass identity stores the pure multiplier of
its SED and knots. -/
def cacheOK {Img : Type} (C : Ctx Img) (bp : Bandpass) (cache : LRU MulKey ℚ) : Prop :=
  ∀ e ∈ cache.entries, e.1.2.1 = bp.bid →
    e.2 = getMultiplier C (e.1.1.eval C.env) bp e.1.2.2

/-- A multiplier-cache lookup returns the pure multiplier of the SED and
knot key and preserves cache well-formedness. -/
theorem mulCacheCall_spec {Img : Type} (C : Ctx Img) (bp : Bandpass)
    (cache : LRU MulKey ℚ) (sed : SpecE) (wl : List ℚ) (hok : cacheOK C bp cache) :
    (mulCacheCall C bp cache sed wl).1 = getMultiplier C (sed.eval C.env) bp wl ∧
      cacheOK C bp (mulCacheCall C bp cache sed wl).2 := by
  unfold mulCacheCall LRU.call
  cases hf : cache.entries.find? (fun e => decide (e.1 = (sed, bp.bid, wl))) with
  | none =>
      constructor
      · rfl
      · intro e he hbid
        rcases List.mem_cons.mp (List.mem_of_mem_take he) with rfl | he2
        · rfl
        · exact hok e he2 hbid
  | some kv =>
      have hmem : kv ∈ cache.entries := List.mem_of_find?_eq_some hf
      have hkey : kv.1 = (sed, bp.bid, wl) := by
        have := List.find?_some hf
        simpa using this
      constructor
      · show kv.2 = getMultiplier C (SpecE.eval C.env sed) bp wl
        have h2 := hok kv hmem (by rw [hkey])
        rw [h2, hkey]
      · intro e he hbid
        rcases List.mem_cons.mp he with rfl | he2
        · exact hok e hmem hbid
        · exact hok e (List.Sublist.mem he2 (List.eraseP_sublist _)) hbid

/-- The separable fast path of the base draw engine: a single render of
the fiducial profile with its flux scaled by multiplier over the spectral
density at the fiducial wavelength (the integrator choice is unused on
this path). -/
theorem baseDraw_sep {Img : Type} [AddCommMonoid Img] [Module ℚ Img] (C : Ctx Img)
    {n : Node Img} {s : SpecE} (bp : Bandpass) (imgOpt : Option Img) (add mp : Bool)
    {fid : ℚ × GSExpr Img} (hsed : n.sedA = some s) (hsep : n.sep = true)
    (hfid : fiducial C n bp = .ok fid) :
    baseDraw C n bp imgOpt add mp =
      .ok (C.render (.scale (getMultiplier C (s.eval C.env) bp (combineWL n bp) /
          s.eval C.env fid.1) fid.2) (some (C.setup fid.2 imgOpt)) add) := by
  unfold baseDraw
  rw [hsed]
  simp only [bind, Except.bind, hfid, hsep, if_true]

/-- C3: for separable SED-carrying nodes that draw through the base
engine, drawImage renders the fiducial profile once with its flux scaled
by multiplier / SED(fiducial wavelength), where the multiplier is the
integral of SED times bandpass: by the trapezoid rule over the combined
wavelength knots when any exist and by adaptive quadrature over the
bandpass limits otherwise; the multiplier is memoized in a cache keyed by
(SED, bandpass, knots) which always yields the pure multiplier.  The
classes drawing through the base engine exclude ChromaticSum,
InterpolatedChromaticObject and interpolated transformations, whose
drawImage overrides never compute the multiplier. -/
theorem separable_draw_multiplier {Img : Type} [AddCommMonoid Img] [Module ℚ Img]
    (C : Ctx Img) :
    (∀ (sedE : ℚ → ℚ) (bp : Bandpass) (wl : List ℚ),
      (wl ≠ [] → getMultiplier C sedE bp wl = trapzQ (fun w => sedE w * bp.f w) wl) ∧
        (wl = [] →
          getMultiplier C sedE bp wl = C.int1d (fun w => sedE w * bp.f w) bp.blue bp.red)) ∧
      (∀ (bp : Bandpass) (cache : LRU MulKey ℚ) (sed : SpecE) (wl : List ℚ),
        cacheOK C bp cache →
        (mulCacheCall C bp cache sed wl).1 = getMultiplier C (sed.eval C.env) bp wl ∧
          cacheOK C bp (mulCacheCall C bp cache sed wl).2) ∧
      ∀ (n : Node Img) (s : SpecE) (bp : Bandpass) (imgOpt : Option Img) (add mp : Bool)
        (fid : ℚ × GSExpr Img),
        n.sedA = some s → n.sep = true → usesBase n = true →
        fiducial C n bp = .ok fid →
        draw C n bp imgOpt add mp =
          .ok (C.render (.scale (getMultiplier C (s.eval C.env) bp (combineWL n bp) /
              s.eval C.env fid.1) fid.2) (some (C.setup fid.2 imgOpt)) add) := by
  refine ⟨?_, fun bp cache sed wl hok => mulCacheCall_spec C bp cache sed wl hok, ?_⟩
  · intro sedE bp wl
    constructor
    · intro hne
      unfold getMultiplier
      rw [if_neg (by simpa using hne)]
    · intro hnil
      subst hnil
      rfl
  · intro n s bp imgOpt add mp fid hsed hsep hub hfid
    obtain ⟨k, hk⟩ : ∃ k, n.sz = k + 1 :=
      ⟨n.sz - 1, by have := Node.sz_pos n; omega⟩
    rw [draw, hk]
    cases n with
    | chrom a g =>
        have hd : drawF C (k + 1) (Node.chrom a g) bp imgOpt add mp =
            baseDraw C (.chrom a g) bp imgOpt add mp := by
          simp [drawF]
        rw [hd]
        exact baseDraw_sep C bp imgOpt add mp hsed hsep hfid
    | cleaf a i =>
        have hd : drawF C (k + 1) (Node.cleaf a i) bp imgOpt add mp =
            baseDraw C (.cleaf a i) bp imgOpt add mp := by
          simp [drawF]
        rw [hd]
        exact baseDraw_sep C bp imgOpt add mp hsed hsep hfid
    | sum a l => simp [usesBase] at hub
    | conv a l =>
        have hsed2 : a.sed = some s := hsed
        have hsep2 : a.sep = true := hsep
        have hd : drawF C (k + 1) (Node.conv a l) bp imgOpt add mp =
            baseDraw C (.conv a l) bp imgOpt add false := by
          simp [drawF, hsed2, hsep2]
        rw [hd]
        exact baseDraw_sep C bp imgOpt add false hsed hsep hfid
    | transform a orig j o fr =>
        have hsed2 : a.sed = some s := hsed
        have hd : drawF C (k + 1) (Node.transform a orig j o fr) bp imgOpt add mp =
            transformDraw C (.transform a orig j o fr) bp imgOpt add mp := by
          simp [drawF]
        rw [hd]
        cases orig
        all_goals
          first
            | (simp only [transformDraw, hsed2]
               exact baseDraw_sep C bp imgOpt add mp hsed hsep hfid)
            | simp [usesBase] at hub
    | deconvN a o =>
        have hd : drawF C (k + 1) (Node.deconvN a o) bp imgOpt add mp =
            baseDraw C (.deconvN a o) bp imgOpt add mp := by
          simp [drawF]
        rw [hd]
        exact baseDraw_sep C bp imgOpt add mp hsed hsep hfid
    | autoconvN a o =>
        have hd : drawF C (k + 1) (Node.autoconvN a o) bp imgOpt add mp =
            baseDraw C (.autoconvN a o) bp imgOpt add mp := by
          simp [drawF]
        rw [hd]
        exact baseDraw_sep C bp imgOpt add mp hsed hsep hfid
    | autocorrN a o =>
        have hd : drawF C (k + 1) (Node.autocorrN a o) bp imgOpt add mp =
            baseDraw C (.autocorrN a o) bp imgOpt add mp := by
          simp [drawF]
        rw [hd]
        exact baseDraw_sep C bp imgOpt add mp hsed hsep hfid
    | fsqrtN a o =>
        have hd : drawF C (k + 1) (Node.fsqrtN a o) bp imgOpt add mp =
            baseDraw C (.fsqrtN a o) bp imgOpt add mp := by
          simp [drawF]
        rw [hd]
        exact baseDraw_sep C bp imgOpt add mp hsed hsep hfid
    | interpN a o w i sk mk ov => simp [usesBase] at hub

/-- Witness for C3: the multiplier selections on a knot list and on an
empty list, a lookup through an empty cache, and a separable SED leaf
drawn over a unit bandpass. -/
theorem separable_draw_multiplier_witness :
    (([1] : List ℚ) ≠ [] ∧
      getMultiplier wCtx (fun w => w) ⟨0, fun _ => 1, 0, 2, 1, [1]⟩ [1] =
        trapzQ (fun w => w * 1) [1]) ∧
      getMultiplier wCtx (fun w => w) ⟨0, fun _ => 1, 0, 2, 1, [1]⟩ [] =
        wCtx.int1d (fun w => w * 1) 0 2 ∧
      (cacheOK wCtx ⟨0, fun _ => 1, 0, 2, 1, [1]⟩ ⟨[], 5⟩ ∧
        (mulCacheCall wCtx ⟨0, fun _ => 1, 0, 2, 1, [1]⟩ ⟨[], 5⟩ (.sedBase 0) [1]).1 =
          getMultiplier wCtx ((SpecE.sedBase 0).eval wCtx.env)
            ⟨0, fun _ => 1, 0, 2, 1, [1]⟩ [1]) ∧
      ∃ fid : ℚ × GSExpr ℚ,
        (mkChromatic wCtx (.base 0) (.sedBase 0)).sedA =
          some ((SpecE.sedBase 0).sedScale (GSExpr.fluxE wCtx (.base 0))) ∧
        (mkChromatic wCtx (.base 0) (.sedBase 0)).sep = true ∧
        usesBase (mkChromatic wCtx (.base 0) (.sedBase 0)) = true ∧
        fiducial wCtx (mkChromatic wCtx (.base 0) (.sedBase 0))
          ⟨0, fun _ => 1, 0, 2, 1, [1]⟩ = .ok fid ∧
        draw wCtx (mkChromatic wCtx (.base 0) (.sedBase 0)) ⟨0, fun _ => 1, 0, 2, 1, [1]⟩
            none false false =
          .ok (wCtx.render (.scale (getMultiplier wCtx
              (((SpecE.sedBase 0).sedScale (GSExpr.fluxE wCtx (.base 0))).eval wCtx.env)
              ⟨0, fun _ => 1, 0, 2, 1, [1]⟩
              (combineWL (mkChromatic wCtx (.base 0) (.sedBase 0))
                ⟨0, fun _ => 1, 0, 2, 1, [1]⟩) /
              ((SpecE.sedBase 0).sedScale (GSExpr.fluxE wCtx (.base 0))).eval wCtx.env
                fid.1) fid.2)
            (some (wCtx.setup fid.2 none)) false) := by
  have h := separable_draw_multiplier wCtx
  have hco : cacheOK wCtx ⟨0, fun _ => 1, 0, 2, 1, [1]⟩ ⟨[], 5⟩ := by
    intro e he hbid
    cases he
  refine ⟨⟨by simp, (h.1 (fun w => w) ⟨0, fun _ => 1, 0, 2, 1, [1]⟩ [1]).1 (by simp)⟩,
    (h.1 (fun w => w) ⟨0, fun _ => 1, 0, 2, 1, [1]⟩ []).2 rfl,
    ⟨hco, (h.2.1 ⟨0, fun _ => 1, 0, 2, 1, [1]⟩ ⟨[], 5⟩ (.sedBase 0) [1] hco).1⟩, ?_⟩
  cases hfid : fiducial wCtx (mkChromatic wCtx (.base 0) (.sedBase 0))
      ⟨0, fun _ => 1, 0, 2, 1, [1]⟩ with
  | error e =>
      exfalso
      revert hfid
      norm_num [fiducial, Node.evalAt, mkChromatic, Node.sedA, Node.attr, GSExpr.fluxE,
        wCtx, SpecE.eval, bind, Except.bind]
      intro hko
      exact Except.noConfusion hko
  | ok fid =>
      exact ⟨fid, rfl, rfl, rfl, rfl,
        h.2.2 _ _ ⟨0, fun _ => 1, 0, 2, 1, [1]⟩ none false false fid rfl rfl rfl hfid⟩

/-- C3 counterexample: a separable SED-carrying InterpolatedChromatic
Object, whose overriding drawImage integrates the stored images instead
of computing the multiplier: the interpolated draw yields 30 while the
multiplier-scaled single render of the fiducial profile would yield 45. -/
theorem separable_draw_multiplier_counterexample :
    ∃ (n : Node ℚ) (s : SpecE) (bp : Bandpass) (fid : ℚ × GSExpr ℚ),
      n.sedA = some s ∧ n.sep = true ∧ fiducial wCtx n bp = .ok fid ∧
        draw wCtx n bp none false false = .ok 30 ∧
        .ok (wCtx.render (.scale (getMultiplier wCtx (s.eval wCtx.env) bp
            (combineWL n bp) / s.eval wCtx.env fid.1) fid.2)
          (some (wCtx.setup fid.2 none)) false) = (.ok 45 : Except Err ℚ) ∧
        draw wCtx n bp none false false ≠
          .ok (wCtx.render (.scale (getMultiplier wCtx (s.eval wCtx.env) bp
              (combineWL n bp) / s.eval wCtx.env fid.1) fid.2)
            (some (wCtx.setup fid.2 none)) false) := by
  refine ⟨.interpN ⟨true, true, some (.sedBase 1), none, [0, 1, 2]⟩ (mkCleaf 0)
    [0, 2] [(10 : ℚ), 20] [1, 2] [3, 4] 4, .sedBase 1, ⟨0, fun _ => 1, 0, 2, 1, [1]⟩,
    (1, .interpImage 15 (some (3 / 2, 7 / 2))), rfl, rfl, ?_, ?_, ?_, ?_⟩
  · norm_num [fiducial, Node.evalAt, imageAtWavelength, findWave, searchsorted, minQ,
      maxQ, linInterp, GSExpr.fluxE, wCtx, bind, Except.bind, List.getD, smul_eq_mul]
  · obtain ⟨k, hk⟩ : ∃ k, (Node.interpN ⟨true, true, some (.sedBase 1), none, [0, 1, 2]⟩
        (mkCleaf 0) [0, 2] [(10 : ℚ), 20] [1, 2] [3, 4] 4 : Node ℚ).sz = k + 1 :=
      ⟨1, by simp [Node.sz, mkCleaf]⟩
    rw [draw, hk]
    simp only [drawF]
    norm_num [interpDraw, interpGet, fiducial, Node.evalAt, imageAtWavelength, findWave,
      searchsorted, minQ, maxQ, linInterp, GSExpr.fluxE, qflux, wCtx, combineWL, Node.wlA,
      Node.sedA, Node.attr, unionQ, insRq, interpWeights, dwList, dwList.dwMid, updAdd,
      weightedSum, filteredVals, bind, Except.bind, List.getD, smul_eq_mul, List.enum,
      List.enumFrom, List.set, List.getElem_cons_succ, List.getElem_cons_zero,
      List.filter, List.foldl, min_def, max_def]
  · norm_num [getMultiplier, trapzQ, combineWL, Node.wlA, Node.attr, unionQ, insRq,
      SpecE.eval, wCtx, GSExpr.fluxE, qflux, smul_eq_mul]
  · intro hcon
    rw [show draw wCtx (.interpN ⟨true, true, some (.sedBase 1), none, [0, 1, 2]⟩
        (mkCleaf 0) [0, 2] [(10 : ℚ), 20] [1, 2] [3, 4] 4) ⟨0, fun _ => 1, 0, 2, 1, [1]⟩
        none false false = (.ok 30 : Except Err ℚ) from ?hd] at hcon
    case hd =>
      obtain ⟨k, hk⟩ : ∃ k, (Node.interpN ⟨true, true, some (.sedBase 1), none, [0, 1, 2]⟩
          (mkCleaf 0) [0, 2] [(10 : ℚ), 20] [1, 2] [3, 4] 4 : Node ℚ).sz = k + 1 :=
        ⟨1, by simp [Node.sz, mkCleaf]⟩
      rw [draw, hk]
      simp only [drawF]
      norm_num [interpDraw, interpGet, fiducial, Node.evalAt, imageAtWavelength, findWave,
        searchsorted, minQ, maxQ, linInterp, GSExpr.fluxE, qflux, wCtx, combineWL,
        Node.wlA, Node.sedA, Node.attr, unionQ, insRq, interpWeights, dwList,
        dwList.dwMid, updAdd, weightedSum, filteredVals, bind, Except.bind, List.getD,
        smul_eq_mul, List.enum, List.enumFrom, List.set, List.getElem_cons_succ,
        List.getElem_cons_zero, List.filter, List.foldl, min_def, max_def]
    rw [show (wCtx.render (.scale (getMultiplier wCtx ((SpecE.sedBase 1).eval wCtx.env)
        ⟨0, fun _ => 1, 0, 2, 1, [1]⟩ (combineWL (.interpN ⟨true, true,
          some (.sedBase 1), none, [0, 1, 2]⟩ (mkCleaf 0) [0, 2] [(10 : ℚ), 20] [1, 2]
          [3, 4] 4) ⟨0, fun _ => 1, 0, 2, 1, [1]⟩) /
        (SpecE.sedBase 1).eval wCtx.env (1, GSExpr.interpImage (15 : ℚ)
          (some (3 / 2, 7 / 2))).1) (1, GSExpr.interpImage (15 : ℚ)
          (some (3 / 2, 7 / 2))).2)
        (some (wCtx.setup (1, GSExpr.interpImage (15 : ℚ) (some (3 / 2, 7 / 2))).2 none))
        false) = (45 : ℚ) from ?hr] at hcon
    case hr =>
      norm_num [getMultiplier, trapzQ, combineWL, Node.wlA, Node.attr, unionQ, insRq,
        SpecE.eval, wCtx, GSExpr.fluxE, qflux, smul_eq_mul]
    exact absurd (Except.ok.inj hcon) (by norm_num)

end GalSimChromatic
